import Mathlib

/-!
# ES123 course examples: timing utility and console programs

A shallow embedding of

* `src/00_utils/ES123.cpp`: the file-scope variable `start` and the functions
  `tic` and `toc`;
* `src/03_input_and_type/main.cpp`: the greeting program;
* `src/04_operators/main.cpp`: the operators program.

Modelling conventions.

* `std::clock_t` is a signed 64-bit integer (`long` on 64-bit Linux): its
  values are the integers from `-2 ^ 63` to `2 ^ 63 - 1`, and the subtraction in
  `toc` wraps around modulo `2 ^ 64`, as the machine subtraction does.
* `std::clock()` is an input: every call of `tic` or `toc` receives the reading
  it observes.
* `CLOCKS_PER_SEC` is a platform constant of type `clock_t`; it is a parameter.
* `double` is IEEE 754 binary64 with the default rounding (to nearest, ties to
  even). Finite values are carried as rational numbers, rounding is an explicit
  function on the rationals.
* The text that `operator<<` produces for a `double` depends on the platform
  and stream state; it is a parameter `render`.
* `std::cout` is the text written so far; `std::endl` appends a newline.
* The two programs are functions of the values their extractions `cin >> x`
  store: the claims about them quantify over the values read.
-/

namespace ES123

/-! ## IEEE 754 binary64 -/

/-- A binary64 datum: a signed zero, a nonzero finite number, a signed infinity
or a NaN. -/
inductive Double where
  | zero (neg : Bool)
  | num (q : ℚ)
  | inf (neg : Bool)
  | nan
  deriving DecidableEq

namespace Double

/-- The sign bit. -/
def isNeg : Double → Bool
  | zero s => s
  | num q => decide (q < 0)
  | inf s => s
  | nan => false

/-- The rational value of a finite datum. -/
def toRat? : Double → Option ℚ
  | zero _ => some 0
  | num q => some q
  | inf _ => none
  | nan => none

/-- The comparison `x <= y` of two data (false when either is a NaN). -/
def le : Double → Double → Bool
  | nan, _ => false
  | _, nan => false
  | inf true, _ => true
  | _, inf false => true
  | inf false, _ => false
  | _, inf true => false
  | zero _, zero _ => true
  | zero _, num b => decide (0 ≤ b)
  | num a, zero _ => decide (a ≤ 0)
  | num a, num b => decide (a ≤ b)

end Double

open Double

/-- Rounding of a rational to an integer, to nearest, ties to even. -/
def roundHalfEven (t : ℚ) : ℤ :=
  if t - ⌊t⌋ < 1 / 2 then ⌊t⌋
  else if 1 / 2 < t - ⌊t⌋ then ⌊t⌋ + 1
  else if ⌊t⌋ % 2 = 0 then ⌊t⌋ else ⌊t⌋ + 1

/-- The binary64 exponent of a positive magnitude `a`: the `e` with
`2 ^ e ≤ a < 2 ^ (e + 1)`, but no smaller than the minimal exponent `-1022`
(subnormal range). -/
def expo (a : ℚ) : ℤ := max (Int.log 2 a) (-1022)

/-- The spacing of binary64 numbers around a positive magnitude `a`
(53 significant bits). -/
def quantum (a : ℚ) : ℚ := 2 ^ (expo a - 52)

/-- Rounding of a positive magnitude to a multiple of its quantum. -/
def roundMag (a : ℚ) : ℚ := roundHalfEven (a / quantum a) * quantum a

/-- Rounding of an exact result to binary64: overflow gives an infinity,
a result that rounds to zero keeps the sign of the exact result. -/
def roundNE (x : ℚ) : Double :=
  if x = 0 then zero false
  else if 2 ^ 1024 ≤ roundMag |x| then inf (decide (x < 0))
  else if roundMag |x| = 0 then zero (decide (x < 0))
  else num (if x < 0 then -roundMag |x| else roundMag |x|)

/-- A rational is a nonzero finite binary64 number. -/
def IsBinary64 (x : ℚ) : Prop :=
  x ≠ 0 ∧ |x| < 2 ^ 1024 ∧ ∃ m : ℤ, |x| = m * quantum |x|

/-- A datum is well formed when its finite nonzero payload is a binary64
number. -/
def Double.Valid : Double → Prop
  | num q => IsBinary64 q
  | _ => True

/-- Conversion of an integer to `double`. -/
def ofInt (n : ℤ) : Double := roundNE n

/-- The product `x * y` of two `double`s. -/
def fmul : Double → Double → Double
  | nan, _ => nan
  | _, nan => nan
  | inf _, zero _ => nan
  | zero _, inf _ => nan
  | inf s, inf t => inf (xor s t)
  | inf s, num b => inf (xor s (decide (b < 0)))
  | num a, inf t => inf (xor (decide (a < 0)) t)
  | zero s, zero t => zero (xor s t)
  | zero s, num b => zero (xor s (decide (b < 0)))
  | num a, zero t => zero (xor (decide (a < 0)) t)
  | num a, num b => roundNE (a * b)

/-- The quotient `x / y` of two `double`s. -/
def fdiv : Double → Double → Double
  | nan, _ => nan
  | _, nan => nan
  | inf _, inf _ => nan
  | zero _, zero _ => nan
  | inf s, zero t => inf (xor s t)
  | inf s, num b => inf (xor s (decide (b < 0)))
  | zero s, inf t => zero (xor s t)
  | num a, inf t => zero (xor (decide (a < 0)) t)
  | num a, zero t => inf (xor (decide (a < 0)) t)
  | zero s, num b => zero (xor s (decide (b < 0)))
  | num a, num b => roundNE (a / b)

/-- The sum `x + y` of two `double`s. -/
def fadd : Double → Double → Double
  | nan, _ => nan
  | _, nan => nan
  | inf s, inf t => if s = t then inf s else nan
  | inf s, zero _ => inf s
  | inf s, num _ => inf s
  | zero _, inf t => inf t
  | num _, inf t => inf t
  | zero s, zero t => zero (s && t)
  | zero _, num b => num b
  | num a, zero _ => num a
  | num a, num b => roundNE (a + b)

/-! ## Output streams -/

/-- The text `operator<<` writes for an `int`: an optional minus sign and the
decimal digits. -/
def decimal (n : ℤ) : String :=
  if n < 0 then "-" ++ String.mk (Nat.toDigits 10 n.natAbs)
  else String.mk (Nat.toDigits 10 n.natAbs)

/-- The newline that `std::endl` writes (the flush that follows it has no
effect on the text). -/
def std.endl : String := "\n"

/-- The number of newline characters of a text. -/
def lineBreaks (s : String) : ℕ := s.toList.count '\n'

/-- A sample rendering of `double`s, to instantiate the platform parameter:
integers are written in decimal (as the default stream formatting does for
integers of at most six digits), other finite numbers as exact fractions. -/
def renderSample : Double → String
  | zero false => "0"
  | zero true => "-0"
  | num q => if q.den = 1 then decimal q.num else decimal q.num ++ "/" ++ decimal q.den
  | inf false => "inf"
  | inf true => "-inf"
  | nan => "nan"

/-! ## `src/00_utils/ES123.cpp` -/

/-- A value of `std::clock_t`: a signed 64-bit integer. -/
structure ClockT where
  val : ℤ
  lo : -2 ^ 63 ≤ val
  hi : val < 2 ^ 63
  deriving DecidableEq

/-- The `clock_t` value congruent to an integer modulo `2 ^ 64`. -/
def ClockT.wrap (n : ℤ) : ClockT :=
  ⟨(n + 2 ^ 63) % 2 ^ 64 - 2 ^ 63,
    by have := Int.emod_nonneg (n + 2 ^ 63) (show (2 : ℤ) ^ 64 ≠ 0 by norm_num); omega,
    by have := Int.emod_lt_of_pos (n + 2 ^ 63) (show (0 : ℤ) < 2 ^ 64 by norm_num); omega⟩

/-- The difference `a - b` of two `clock_t` values, wrapping around on
overflow. -/
def ClockT.sub (a b : ClockT) : ClockT := ClockT.wrap (a.val - b.val)

/-- The `clock_t` value `0`. -/
def ClockT.zero : ClockT := ⟨0, by decide, by decide⟩

/-- The state the timer can touch: the file-scope variable `start`, the text
written to `std::cout` and the unread part of `std::cin`. -/
structure World where
  start : ClockT
  cout : String
  cin : String

/-- The state at program start: `static std::clock_t start = 0;`, nothing
written yet. -/
def World.initial (input : String) : World := ⟨ClockT.zero, "", input⟩

/-- `void tic(void)`: `start = std::clock();` -/
def tic (clock : ClockT) (w : World) : World :=
  { w with start := clock }

/-- The expression `1.0 * diff / CLOCKS_PER_SEC` of `toc`, for the value of
`diff`. -/
def elapsedSeconds (CPS : ℤ) (diff : ℤ) : Double :=
  fdiv (fmul (num 1) (ofInt diff)) (ofInt CPS)

/-- `void toc(void)`: computes `diff = std::clock() - start` and writes
`"elapsed time: " << 1.0 * diff / CLOCKS_PER_SEC << " seconds" << std::endl`. -/
def toc (CPS : ℤ) (render : Double → String) (clock : ClockT) (w : World) : World :=
  let diff := ClockT.sub clock w.start
  { w with cout := w.cout ++ "elapsed time: " ++ render (elapsedSeconds CPS diff.val)
                     ++ " seconds" ++ std.endl }

/-- A call of one of the two timer functions, with the clock reading it
observes. -/
inductive Call where
  | tic (clock : ClockT)
  | toc (clock : ClockT)
  deriving DecidableEq

/-- Execution of one call. -/
def step (CPS : ℤ) (render : Double → String) (w : World) : Call → World
  | Call.tic c => tic c w
  | Call.toc c => toc CPS render c w

/-- Execution of a sequence of calls, first call first. -/
def run (CPS : ℤ) (render : Double → String) (w : World) (calls : List Call) : World :=
  calls.foldl (step CPS render) w

/-- The clock readings of the `tic` calls of a sequence, in call order. -/
def ticReadings : List Call → List ClockT
  | [] => []
  | Call.tic c :: rest => c :: ticReadings rest
  | Call.toc _ :: rest => ticReadings rest

/-! ## The two console programs

Both programs include the header `ES123.hpp`, which is not among the source
files, and use `string`, `cin`, `cout` and `endl` unqualified. -/

/-- Modelled from the spec: the header `ES123.hpp` is missing; the unqualified
`endl` it makes visible to the programs is taken to be `std::endl`, in line with
the console protocol of the spec, where each program prints lines. -/
def endl : String := std.endl

/-! ### `src/03_input_and_type/main.cpp` -/

namespace InputAndType

/-- `int main()`: the arguments are the values the two extractions
`cin >> first_name` and `cin >> age` store; the result is the text written to
`cout` and the return value. -/
def main (first_name : String) (age : ℤ) : String × ℤ :=
  let cout := ""
  let cout := cout ++ "Please enter your first name: "
  let cout := cout ++ "Please enter your age: "
  let cout := cout ++ "Hello, " ++ first_name ++ " (age " ++ decimal age ++ ")" ++ endl
  (cout, 0)

end InputAndType

/-! ### `src/04_operators/main.cpp` -/

namespace Operators

/-- `int main()`: the argument is the value the extraction `cin >> v` stores;
the result is the text written to `cout` and the return value. The integer
literals `1`, `3` and `2` are converted to `double` before the operation. -/
def main (render : Double → String) (v : Double) : String × ℤ :=
  let cout := ""
  let cout := cout ++ "Please enter a floating point value: "
  let cout := cout ++ "v == " ++ render v ++ endl
                   ++ "v+1 == " ++ render (fadd v (ofInt 1)) ++ endl
                   ++ "3*v == " ++ render (fmul (ofInt 3) v) ++ endl
                   ++ "v+v == " ++ render (fadd v v) ++ endl
                   ++ "v*v == " ++ render (fmul v v) ++ endl
                   ++ "v/2 == " ++ render (fdiv v (ofInt 2)) ++ endl
  (cout, 0)

end Operators

/-! ## Rounding to an integer -/

theorem floor_le_roundHalfEven (t : ℚ) : ⌊t⌋ ≤ roundHalfEven t := by
  unfold roundHalfEven
  split_ifs <;> omega

theorem roundHalfEven_le_floor_add_one (t : ℚ) : roundHalfEven t ≤ ⌊t⌋ + 1 := by
  unfold roundHalfEven
  split_ifs <;> omega

theorem roundHalfEven_intCast (n : ℤ) : roundHalfEven (n : ℚ) = n := by
  simp [roundHalfEven]

theorem abs_roundHalfEven_sub_le (t : ℚ) : |(roundHalfEven t : ℚ) - t| ≤ 1 / 2 := by
  have h1 := Int.floor_le t
  have h2 := Int.lt_floor_add_one t
  unfold roundHalfEven
  rw [abs_le]
  split_ifs <;> push_cast <;> constructor <;> linarith

theorem roundHalfEven_mono {s t : ℚ} (h : s ≤ t) : roundHalfEven s ≤ roundHalfEven t := by
  have hf : ⌊s⌋ ≤ ⌊t⌋ := Int.floor_mono h
  rcases lt_or_eq_of_le hf with hlt | heq
  · have h1 := roundHalfEven_le_floor_add_one s
    have h2 := floor_le_roundHalfEven t
    omega
  · unfold roundHalfEven
    rw [heq]
    split_ifs <;> first | omega | (exfalso; linarith)

theorem le_roundHalfEven {n : ℤ} {t : ℚ} (h : (n : ℚ) ≤ t) : n ≤ roundHalfEven t := by
  have := roundHalfEven_mono h
  rwa [roundHalfEven_intCast] at this

theorem roundHalfEven_le {n : ℤ} {t : ℚ} (h : t ≤ (n : ℚ)) : roundHalfEven t ≤ n := by
  have := roundHalfEven_mono h
  rwa [roundHalfEven_intCast] at this

/-! ## Exponent and quantum -/

theorem expo_ge (a : ℚ) : -1022 ≤ expo a := le_max_right _ _

theorem log_le_expo (a : ℚ) : Int.log 2 a ≤ expo a := le_max_left _ _

theorem expo_mono {a b : ℚ} (ha : 0 < a) (h : a ≤ b) : expo a ≤ expo b :=
  max_le_max (Int.log_mono_right ha h) le_rfl

theorem quantum_pos (a : ℚ) : 0 < quantum a := by
  unfold quantum; positivity

theorem lt_two_zpow_expo_succ (a : ℚ) : a < 2 ^ (expo a + 1) := by
  have h := Int.lt_zpow_succ_log_self (b := 2) (by norm_num) a
  have h2 : ((2 : ℕ) : ℚ) ^ (Int.log 2 a + 1) ≤ (2 : ℚ) ^ (expo a + 1) := by
    push_cast
    exact zpow_le_zpow_right₀ (by norm_num) (by linarith [log_le_expo a])
  exact lt_of_lt_of_le h h2

theorem two_zpow_expo_le {a : ℚ} (ha : 0 < a) (h : expo a = Int.log 2 a) :
    (2 : ℚ) ^ expo a ≤ a := by
  have := Int.zpow_log_le_self (b := 2) (by norm_num) ha
  rw [h]; simpa using this

theorem expo_eq_log_of_le {a : ℚ} (h : (2 : ℚ) ^ (-1022 : ℤ) ≤ a) : expo a = Int.log 2 a := by
  have ha : 0 < a := lt_of_lt_of_le (by positivity) h
  have : (-1022 : ℤ) ≤ Int.log 2 a := by
    rw [← Int.zpow_le_iff_le_log (by norm_num) ha]
    simpa using h
  exact max_eq_left this

theorem two_zpow_expo_eq (a : ℚ) : (2 : ℚ) ^ (expo a + 1) = 2 ^ 53 * quantum a := by
  unfold quantum
  rw [show expo a + 1 = 53 + (expo a - 52) by ring, zpow_add₀ (by norm_num)]
  norm_num

theorem two_zpow_expo_eq' (a : ℚ) : (2 : ℚ) ^ (expo a) = 2 ^ 52 * quantum a := by
  unfold quantum
  rw [show expo a = 52 + (expo a - 52) by ring, zpow_add₀ (by norm_num)]
  norm_num

/-! ## Rounding of magnitudes -/

theorem div_quantum_lt (a : ℚ) : a / quantum a < 2 ^ 53 := by
  rw [div_lt_iff₀ (quantum_pos a), ← two_zpow_expo_eq]
  exact lt_two_zpow_expo_succ a

theorem le_div_quantum {a : ℚ} (ha : 0 < a) (h : expo a = Int.log 2 a) :
    2 ^ 52 ≤ a / quantum a := by
  rw [le_div_iff₀ (quantum_pos a), ← two_zpow_expo_eq']
  exact two_zpow_expo_le ha h

theorem roundMag_nonneg {a : ℚ} (ha : 0 ≤ a) : 0 ≤ roundMag a := by
  unfold roundMag
  have h0 : (0 : ℚ) ≤ a / quantum a := div_nonneg ha (quantum_pos a).le
  have : (0 : ℤ) ≤ roundHalfEven (a / quantum a) := le_roundHalfEven (by simpa using h0)
  have : (0 : ℚ) ≤ (roundHalfEven (a / quantum a) : ℚ) := by exact_mod_cast this
  exact mul_nonneg this (quantum_pos a).le

theorem roundMag_le_two_zpow (a : ℚ) : roundMag a ≤ 2 ^ (expo a + 1) := by
  rw [two_zpow_expo_eq]
  unfold roundMag
  have h : roundHalfEven (a / quantum a) ≤ ((2 ^ 53 : ℕ) : ℤ) :=
    roundHalfEven_le (by push_cast; exact (div_quantum_lt a).le)
  have h' : (roundHalfEven (a / quantum a) : ℚ) ≤ 2 ^ 53 := by exact_mod_cast h
  exact mul_le_mul_of_nonneg_right h' (quantum_pos a).le

theorem two_zpow_le_roundMag {a : ℚ} (ha : 0 < a) (h : expo a = Int.log 2 a) :
    (2 : ℚ) ^ expo a ≤ roundMag a := by
  rw [two_zpow_expo_eq']
  unfold roundMag
  have h1 : ((2 ^ 52 : ℕ) : ℤ) ≤ roundHalfEven (a / quantum a) :=
    le_roundHalfEven (by push_cast; exact le_div_quantum ha h)
  have h' : (2 ^ 52 : ℚ) ≤ (roundHalfEven (a / quantum a) : ℚ) := by exact_mod_cast h1
  exact mul_le_mul_of_nonneg_right h' (quantum_pos a).le

theorem roundMag_mono {a b : ℚ} (ha : 0 < a) (h : a ≤ b) : roundMag a ≤ roundMag b := by
  have hb : 0 < b := lt_of_lt_of_le ha h
  rcases lt_or_eq_of_le (expo_mono ha h) with hlt | heq
  · have hbe : expo b = Int.log 2 b := by
      have := expo_ge a
      unfold expo at hlt ⊢
      rcases max_cases (Int.log 2 b) (-1022) with ⟨h1, _⟩ | ⟨h1, _⟩
      · exact h1
      · rw [h1] at hlt; unfold expo at this; omega
    calc roundMag a ≤ 2 ^ (expo a + 1) := roundMag_le_two_zpow a
      _ ≤ 2 ^ expo b := zpow_le_zpow_right₀ (by norm_num) (by omega)
      _ ≤ roundMag b := two_zpow_le_roundMag hb hbe
  · have hq : quantum a = quantum b := by unfold quantum; rw [heq]
    unfold roundMag
    rw [hq]
    have h1 : a / quantum b ≤ b / quantum b := div_le_div_of_nonneg_right h (quantum_pos b).le
    have h2 := roundHalfEven_mono h1
    have h3 : (roundHalfEven (a / quantum b) : ℚ) ≤ roundHalfEven (b / quantum b) := by
      exact_mod_cast h2
    exact mul_le_mul_of_nonneg_right h3 (quantum_pos b).le

theorem abs_roundMag_sub_le (a : ℚ) : |roundMag a - a| ≤ quantum a / 2 := by
  have hq := quantum_pos a
  have h := abs_roundHalfEven_sub_le (a / quantum a)
  have e : roundMag a - a = ((roundHalfEven (a / quantum a) : ℚ) - a / quantum a) * quantum a := by
    unfold roundMag; field_simp
  rw [e, abs_mul, abs_of_pos hq]
  calc _ ≤ 1 / 2 * quantum a := mul_le_mul_of_nonneg_right h hq.le
    _ = quantum a / 2 := by ring

/-- In the normal range the relative error of rounding is at most `2 ^ (-53)`. -/
theorem abs_roundMag_sub_le_mul {a : ℚ} (h : (2 : ℚ) ^ (-1022 : ℤ) ≤ a) :
    |roundMag a - a| ≤ a / 2 ^ 53 := by
  have ha : 0 < a := lt_of_lt_of_le (by positivity) h
  have h1 := abs_roundMag_sub_le a
  have h2 := two_zpow_expo_le ha (expo_eq_log_of_le h)
  rw [two_zpow_expo_eq'] at h2
  have : quantum a / 2 ≤ a / 2 ^ 53 := by
    rw [div_le_div_iff₀ (by norm_num) (by positivity)]
    nlinarith
  linarith

theorem roundMag_of_eq {a : ℚ} {m : ℤ} (h : a = m * quantum a) : roundMag a = a := by
  have hq := quantum_pos a
  have : a / quantum a = m := by
    rw [div_eq_iff hq.ne']; exact h
  unfold roundMag
  rw [this, roundHalfEven_intCast]
  exact h.symm

/-! ## Binary64 numbers -/

theorem expo_two_zpow {k : ℤ} (hk : -1022 ≤ k) : expo ((2 : ℚ) ^ k) = k := by
  unfold expo
  have := Int.log_zpow (R := ℚ) (b := 2) (by norm_num) k
  simp only [Nat.cast_ofNat] at this
  rw [this]
  exact max_eq_left hk

/-- A positive dyadic `k * 2 ^ j` whose exponent `j` is at least that of the
quantum is a multiple of the quantum. -/
theorem exists_eq_mul_quantum {a : ℚ} {k j : ℤ} (h : a = k * 2 ^ j) (hj : expo a - 52 ≤ j) :
    ∃ m : ℤ, a = m * quantum a := by
  refine ⟨k * 2 ^ (j - (expo a - 52)).toNat, ?_⟩
  have e : ((j - (expo a - 52)).toNat : ℤ) = j - (expo a - 52) := Int.toNat_of_nonneg (by omega)
  unfold quantum
  push_cast
  rw [mul_assoc, ← zpow_natCast, ← zpow_add₀ (by norm_num), e]
  rw [show j - (expo a - 52) + (expo a - 52) = j by ring]
  exact h

/-- The result of rounding a magnitude is again a multiple of its own quantum. -/
theorem roundMag_eq_mul_quantum {a : ℚ} (ha : 0 < a) :
    ∃ m : ℤ, roundMag a = m * quantum (roundMag a) := by
  have hq := quantum_pos a
  have hlt := div_quantum_lt a
  have hn0 : (0 : ℤ) ≤ roundHalfEven (a / quantum a) :=
    le_roundHalfEven (by simpa using (div_nonneg ha.le hq.le))
  have hn53 : roundHalfEven (a / quantum a) ≤ ((2 ^ 53 : ℕ) : ℤ) :=
    roundHalfEven_le (by push_cast; exact hlt.le)
  rcases eq_or_lt_of_le hn0 with h0 | hpos
  · refine ⟨0, ?_⟩
    unfold roundMag; rw [← h0]; simp
  rcases eq_or_lt_of_le hn53 with h53 | hlt53
  · -- the significand overflows to the next power of two
    have hr : roundMag a = 2 ^ (expo a + 1) := by
      rw [two_zpow_expo_eq]; unfold roundMag; rw [h53]; push_cast; rfl
    refine exists_eq_mul_quantum (k := 1) (j := expo a + 1) (by rw [hr]; simp) ?_
    rw [hr, expo_two_zpow (by have := expo_ge a; omega)]
    omega
  · -- the significand stays below `2 ^ 53`
    have hr : roundMag a = roundHalfEven (a / quantum a) * 2 ^ (expo a - 52) := rfl
    refine exists_eq_mul_quantum hr ?_
    have hrpos : 0 < roundMag a := by
      unfold roundMag
      exact mul_pos (by exact_mod_cast hpos) hq
    have hrlt : roundMag a < 2 ^ (expo a + 1) := by
      rw [two_zpow_expo_eq]; unfold roundMag
      have : (roundHalfEven (a / quantum a) : ℚ) < 2 ^ 53 := by exact_mod_cast hlt53
      exact mul_lt_mul_of_pos_right this hq
    have hlog : Int.log 2 (roundMag a) < expo a + 1 := by
      rw [← Int.lt_zpow_iff_log_lt (by norm_num) hrpos]
      simpa using hrlt
    have := expo_ge a
    have : expo (roundMag a) ≤ expo a := by
      unfold expo at *
      exact max_le (by omega) (by omega)
    omega

theorem roundNE_of_isBinary64 {x : ℚ} (h : IsBinary64 x) : roundNE x = num x := by
  obtain ⟨h0, hlt, m, hm⟩ := h
  have hr : roundMag |x| = |x| := roundMag_of_eq hm
  unfold roundNE
  rw [hr, if_neg h0, if_neg (not_le.mpr hlt), if_neg (abs_ne_zero.mpr h0)]
  congr 1
  split_ifs with hx
  · rw [abs_of_neg hx]; ring
  · exact abs_of_nonneg (not_lt.mp hx)

theorem roundNE_valid (x : ℚ) : (roundNE x).Valid := by
  unfold roundNE
  split_ifs with h0 h1 h2 h3
  · trivial
  · trivial
  · trivial
  · have ha : 0 < |x| := abs_pos.mpr h0
    have hr := roundMag_nonneg ha.le
    refine ⟨neg_ne_zero.mpr h2, ?_, ?_⟩
    · rw [abs_neg, abs_of_nonneg hr]; exact not_le.mp h1
    · rw [abs_neg, abs_of_nonneg hr]; exact roundMag_eq_mul_quantum ha
  · have ha : 0 < |x| := abs_pos.mpr h0
    have hr := roundMag_nonneg ha.le
    refine ⟨h2, ?_, ?_⟩
    · rw [abs_of_nonneg hr]; exact not_le.mp h1
    · rw [abs_of_nonneg hr]; exact roundMag_eq_mul_quantum ha

/-! ## Monotonicity of rounding -/

theorem roundNE_zero : roundNE 0 = zero false := by
  simp [roundNE]

theorem roundNE_of_pos {x : ℚ} (hx : 0 < x) :
    roundNE x = if 2 ^ 1024 ≤ roundMag x then inf false
      else if roundMag x = 0 then zero false else num (roundMag x) := by
  unfold roundNE
  rw [if_neg hx.ne', abs_of_pos hx]
  simp [not_lt.mpr hx.le]

theorem roundNE_of_neg {x : ℚ} (hx : x < 0) :
    roundNE x = if 2 ^ 1024 ≤ roundMag (-x) then inf true
      else if roundMag (-x) = 0 then zero true else num (-roundMag (-x)) := by
  unfold roundNE
  rw [if_neg hx.ne, abs_of_neg hx]
  simp [hx]

theorem zero_le_roundNE {x : ℚ} (hx : 0 ≤ x) (s : Bool) : Double.le (zero s) (roundNE x) = true := by
  rcases eq_or_lt_of_le hx with h | h
  · rw [← h, roundNE_zero]; rfl
  · rw [roundNE_of_pos h]
    have := roundMag_nonneg h.le
    split_ifs <;> simp [Double.le, this]

theorem roundNE_le_zero {x : ℚ} (hx : x ≤ 0) (s : Bool) : Double.le (roundNE x) (zero s) = true := by
  rcases eq_or_lt_of_le hx with h | h
  · rw [h, roundNE_zero]; rfl
  · rw [roundNE_of_neg h]
    have := roundMag_nonneg (neg_nonneg.mpr h.le)
    split_ifs <;> simp [Double.le, this]

theorem roundNE_neg_le_roundNE_pos {x y : ℚ} (hx : x ≤ 0) (hy : 0 ≤ y) :
    Double.le (roundNE x) (roundNE y) = true := by
  rcases eq_or_lt_of_le hx with h | h
  · rw [h, roundNE_zero]; exact zero_le_roundNE hy false
  rcases eq_or_lt_of_le hy with h' | h'
  · rw [← h', roundNE_zero]; exact roundNE_le_zero hx false
  rw [roundNE_of_neg h, roundNE_of_pos h']
  have h1 := roundMag_nonneg (neg_nonneg.mpr h.le)
  have h2 := roundMag_nonneg h'.le
  split_ifs <;> simp [Double.le, h1, h2]
  linarith

/-- Rounding to binary64 is monotone. -/
theorem roundNE_mono {x y : ℚ} (h : x ≤ y) : Double.le (roundNE x) (roundNE y) = true := by
  rcases le_or_lt x 0 with hx | hx
  · rcases le_or_lt 0 y with hy | hy
    · exact roundNE_neg_le_roundNE_pos hx hy
    · have hx' : x < 0 := lt_of_le_of_lt h hy
      rw [roundNE_of_neg hx', roundNE_of_neg hy]
      have hm := roundMag_mono (neg_pos.mpr hy) (neg_le_neg h)
      have h1 := roundMag_nonneg (neg_nonneg.mpr hx'.le)
      have h2 := roundMag_nonneg (neg_nonneg.mpr hy.le)
      split_ifs <;> simp [Double.le, h1, h2] <;> linarith
  · have hy : 0 < y := lt_of_lt_of_le hx h
    rw [roundNE_of_pos hx, roundNE_of_pos hy]
    have hm := roundMag_mono hx h
    have h1 := roundMag_nonneg hx.le
    have h2 := roundMag_nonneg hy.le
    split_ifs <;> simp [Double.le, h1, h2] <;> linarith

/-! ## Conversions and operations -/

theorem roundNE_ne_nan (x : ℚ) : roundNE x ≠ nan := by
  unfold roundNE
  split_ifs <;> simp

theorem le_inf_false {x : Double} (h : x ≠ nan) : Double.le x (inf false) = true := by
  cases x with
  | zero s => rfl
  | num q => rfl
  | inf s => cases s <;> rfl
  | nan => exact absurd rfl h

theorem inf_true_le {x : Double} (h : x ≠ nan) : Double.le (inf true) x = true := by
  cases x with
  | zero s => rfl
  | num q => rfl
  | inf s => cases s <;> rfl
  | nan => exact absurd rfl h

/-- Integers of magnitude at most `2 ^ 53` are binary64 numbers. -/
theorem isBinary64_intCast {n : ℤ} (h0 : n ≠ 0) (h : |n| ≤ 2 ^ 53) : IsBinary64 (n : ℚ) := by
  have hq : |(n : ℚ)| = ((|n| : ℤ) : ℚ) := by push_cast; rfl
  have hle : |(n : ℚ)| ≤ 2 ^ 53 := by rw [hq]; exact_mod_cast h
  have hpos : 0 < |(n : ℚ)| := abs_pos.mpr (by exact_mod_cast h0)
  refine ⟨by exact_mod_cast h0, lt_of_le_of_lt hle (by norm_num), ?_⟩
  rcases eq_or_lt_of_le hle with he | hlt
  · refine exists_eq_mul_quantum (k := 1) (j := 53) (by rw [he]; norm_num) ?_
    have : |(n : ℚ)| = (2 : ℚ) ^ (53 : ℤ) := by rw [he]; norm_num
    rw [this, expo_two_zpow (by norm_num)]
    norm_num
  · refine exists_eq_mul_quantum (k := |n|) (j := 0) (by rw [hq]; simp) ?_
    have hlog : Int.log 2 |(n : ℚ)| < 53 := by
      rw [← Int.lt_zpow_iff_log_lt (by norm_num) hpos]
      exact lt_of_lt_of_eq hlt (by norm_num)
    have : expo |(n : ℚ)| ≤ 52 := by
      unfold expo
      exact max_le (by omega) (by norm_num)
    omega

theorem ofInt_zero : ofInt 0 = zero false := by
  simp [ofInt, roundNE_zero]

theorem ofInt_of_abs_le {n : ℤ} (h0 : n ≠ 0) (h : |n| ≤ 2 ^ 53) : ofInt n = num n :=
  roundNE_of_isBinary64 (isBinary64_intCast h0 h)

theorem ofInt_valid (n : ℤ) : (ofInt n).Valid := roundNE_valid n

theorem ofInt_ne_nan (n : ℤ) : ofInt n ≠ nan := roundNE_ne_nan n

/-- Multiplying by `1.0` changes nothing. -/
theorem fmul_one_left {y : Double} (h : y.Valid) : fmul (num 1) y = y := by
  have h1 : ¬ ((1 : ℚ) < 0) := by norm_num
  cases y with
  | zero s => simp [fmul, h1]
  | num b => simp only [fmul, one_mul]; exact roundNE_of_isBinary64 h
  | inf s => simp [fmul, h1]
  | nan => rfl

theorem fdiv_num_ne_nan {y : Double} (h : y ≠ nan) (c : ℚ) : fdiv y (num c) ≠ nan := by
  cases y with
  | zero s => simp [fdiv]
  | num b => simp only [fdiv]; exact roundNE_ne_nan _
  | inf s => simp [fdiv]
  | nan => exact absurd rfl h

/-- Division by a positive finite number is monotone. -/
theorem fdiv_num_mono {y z : Double} {c : ℚ} (hc : 0 < c) (h : Double.le y z = true) :
    Double.le (fdiv y (num c)) (fdiv z (num c)) = true := by
  have hc' : ¬ c < 0 := not_lt.mpr hc.le
  cases y with
  | nan => simp [Double.le] at h
  | zero s =>
    cases z with
    | nan => simp [Double.le] at h
    | zero t => simp [fdiv, Double.le]
    | num b =>
      simp only [Double.le, decide_eq_true_eq] at h
      simp only [fdiv]
      exact zero_le_roundNE (div_nonneg h hc.le) _
    | inf t =>
      cases t
      · simp [fdiv, Double.le, hc']
      · simp [Double.le] at h
  | num a =>
    cases z with
    | nan => simp [Double.le] at h
    | zero t =>
      simp only [Double.le, decide_eq_true_eq] at h
      simp only [fdiv]
      exact roundNE_le_zero (div_nonpos_of_nonpos_of_nonneg h hc.le) _
    | num b =>
      simp only [Double.le, decide_eq_true_eq] at h
      simp only [fdiv]
      exact roundNE_mono (div_le_div_of_nonneg_right h hc.le)
    | inf t =>
      cases t
      · simp only [fdiv, hc', decide_False, Bool.xor_false]
        exact le_inf_false (roundNE_ne_nan _)
      · simp [Double.le] at h
  | inf s =>
    cases s
    · cases z with
      | nan => simp [Double.le] at h
      | zero t => simp [Double.le] at h
      | num b => simp [Double.le] at h
      | inf t =>
        cases t
        · simp [fdiv, Double.le, hc']
        · simp [Double.le] at h
    · have hz : z ≠ nan := by
        rintro rfl
        simp [Double.le] at h
      have : fdiv (inf true) (num c) = inf true := by simp [fdiv, hc']
      rw [this]
      exact inf_true_le (fdiv_num_ne_nan hz c)

/-! ## Evaluation and error bounds -/

theorem expo_eq_of_bounds {a : ℚ} {e : ℤ} (he : -1022 ≤ e) (h1 : (2 : ℚ) ^ e ≤ a)
    (h2 : a < 2 ^ (e + 1)) : expo a = e := by
  have ha : 0 < a := lt_of_lt_of_le (by positivity) h1
  have hl1 : e ≤ Int.log 2 a := by
    rw [← Int.zpow_le_iff_le_log (by norm_num) ha]; simpa using h1
  have hl2 : Int.log 2 a < e + 1 := by
    rw [← Int.lt_zpow_iff_log_lt (by norm_num) ha]; simpa using h2
  unfold expo
  rw [max_eq_left (by omega)]
  omega

theorem roundHalfEven_eq_of_lt {t : ℚ} {n : ℤ} (h1 : (n : ℚ) - 1 / 2 < t)
    (h2 : t < (n : ℚ) + 1 / 2) : roundHalfEven t = n := by
  have hf1 : n - 1 ≤ ⌊t⌋ := Int.le_floor.mpr (by push_cast; linarith)
  have hf2 : ⌊t⌋ ≤ n := by
    have : ⌊t⌋ < n + 1 := Int.floor_lt.mpr (by push_cast; linarith)
    omega
  have h3 := Int.floor_le t
  have h4 := Int.lt_floor_add_one t
  rcases eq_or_lt_of_le hf2 with h | h
  · unfold roundHalfEven
    rw [h, if_pos (by linarith)]
  · have h' : ⌊t⌋ = n - 1 := by omega
    unfold roundHalfEven
    rw [h', if_neg (by push_cast; linarith), if_pos (by push_cast; linarith)]
    ring

/-- Evaluation of `roundNE` at a positive number from explicit bounds. -/
theorem roundNE_eq_of_bounds {x : ℚ} {e n : ℤ} (he : -1022 ≤ e) (h1 : (2 : ℚ) ^ e ≤ x)
    (h2 : x < 2 ^ (e + 1)) (hn1 : (n : ℚ) - 1 / 2 < x / 2 ^ (e - 52))
    (hn2 : x / 2 ^ (e - 52) < (n : ℚ) + 1 / 2) (hn : 0 < n)
    (hlt : (n : ℚ) * 2 ^ (e - 52) < 2 ^ 1024) : roundNE x = num (n * 2 ^ (e - 52)) := by
  have hx : 0 < x := lt_of_lt_of_le (by positivity) h1
  have hr : roundMag x = n * 2 ^ (e - 52) := by
    unfold roundMag quantum
    rw [expo_eq_of_bounds he h1 h2, roundHalfEven_eq_of_lt hn1 hn2]
  have hpos : (0 : ℚ) < n * 2 ^ (e - 52) := mul_pos (by exact_mod_cast hn) (by positivity)
  rw [roundNE_of_pos hx, hr, if_neg (not_le.mpr hlt), if_neg hpos.ne']

/-- In the normal range rounding gives a finite nonzero number with relative
error at most `2 ^ (-53)`. -/
theorem roundNE_normal {x : ℚ} (h1 : (2 : ℚ) ^ (-1022 : ℤ) ≤ |x|) (h2 : |x| ≤ 2 ^ 1023) :
    ∃ e : ℚ, roundNE x = num e ∧ e ≠ 0 ∧ |e - x| ≤ |x| / 2 ^ 53 := by
  have ha : 0 < |x| := lt_of_lt_of_le (by positivity) h1
  have hx0 : x ≠ 0 := abs_pos.mp ha
  have herr := abs_roundMag_sub_le_mul h1
  rw [abs_le] at herr
  have hlo : 0 < roundMag |x| := by
    have : |x| / 2 ^ 53 < |x| := div_lt_self ha (by norm_num)
    linarith [herr.1]
  have hhi : roundMag |x| < 2 ^ 1024 := by
    have : |x| / 2 ^ 53 < |x| := div_lt_self ha (by norm_num)
    have : roundMag |x| < 2 ^ 1023 + 2 ^ 1023 := by linarith [herr.2]
    exact lt_of_lt_of_le this (by norm_num)
  rcases lt_or_gt_of_ne hx0 with hneg | hpos
  · refine ⟨-roundMag |x|, ?_, by linarith, ?_⟩
    · unfold roundNE
      rw [if_neg hx0, if_neg (not_le.mpr hhi), if_neg hlo.ne', if_pos hneg]
    · rw [abs_of_neg hneg] at herr ⊢
      rw [abs_le]; constructor <;> linarith [herr.1, herr.2]
  · refine ⟨roundMag |x|, ?_, hlo.ne', ?_⟩
    · unfold roundNE
      rw [if_neg hx0, if_neg (not_le.mpr hhi), if_neg hlo.ne', if_neg (not_lt.mpr hpos.le)]
    · rw [abs_of_pos hpos] at herr ⊢
      rw [abs_le]; constructor <;> linarith [herr.1, herr.2]

/-! ## The elapsed-seconds expression -/

theorem ofInt_CPS {CPS : ℤ} (h0 : 0 < CPS) (h : CPS ≤ 2 ^ 53) : ofInt CPS = num CPS :=
  ofInt_of_abs_le h0.ne' (by rw [abs_of_pos h0]; exact h)

theorem elapsedSeconds_eq_fdiv (CPS diff : ℤ) :
    elapsedSeconds CPS diff = fdiv (ofInt diff) (ofInt CPS) := by
  unfold elapsedSeconds
  rw [fmul_one_left (ofInt_valid diff)]

theorem elapsedSeconds_zero {CPS : ℤ} (h0 : 0 < CPS) (h : CPS ≤ 2 ^ 53) :
    elapsedSeconds CPS 0 = zero false := by
  rw [elapsedSeconds_eq_fdiv, ofInt_CPS h0 h, ofInt_zero]
  have : ¬ ((CPS : ℚ) < 0) := not_lt.mpr (by exact_mod_cast h0.le)
  simp [fdiv, this]

/-- For differences of magnitude at most `2 ^ 53` the elapsed-seconds value is
the rounding of the exact quotient. -/
theorem elapsedSeconds_eq_roundNE {CPS diff : ℤ} (h0 : 0 < CPS) (h : CPS ≤ 2 ^ 53)
    (hd : |diff| ≤ 2 ^ 53) : elapsedSeconds CPS diff = roundNE ((diff : ℚ) / CPS) := by
  rcases eq_or_ne diff 0 with rfl | hne
  · rw [elapsedSeconds_zero h0 h]; simp [roundNE_zero]
  · rw [elapsedSeconds_eq_fdiv, ofInt_CPS h0 h, ofInt_of_abs_le hne hd]
    rfl

/-- The elapsed-seconds value is monotone in the tick difference. -/
theorem elapsedSeconds_mono {CPS : ℤ} (h0 : 0 < CPS) (h : CPS ≤ 2 ^ 53) {d₁ d₂ : ℤ}
    (hd : d₁ ≤ d₂) : Double.le (elapsedSeconds CPS d₁) (elapsedSeconds CPS d₂) = true := by
  rw [elapsedSeconds_eq_fdiv, elapsedSeconds_eq_fdiv, ofInt_CPS h0 h]
  refine fdiv_num_mono (by exact_mod_cast h0) ?_
  exact roundNE_mono (by exact_mod_cast hd)

/-- For a nonzero tick difference of magnitude at most `2 ^ 53` the conversion to
`double` is exact and the elapsed-seconds value is the rounding of the real
quotient: a binary64 number within relative error `2 ^ (-53)` of it. -/
theorem elapsedSeconds_normal {CPS d : ℤ} (h0 : 0 < CPS) (h : CPS ≤ 2 ^ 53)
    (hd : |d| ≤ 2 ^ 53) (hne : d ≠ 0) :
    ∃ e : ℚ, elapsedSeconds CPS d = num e ∧ roundNE ((d : ℚ) / CPS) = num e ∧ IsBinary64 e ∧
      |e - (d : ℚ) / CPS| ≤ |(d : ℚ) / CPS| / 2 ^ 53 ∧
      |e * CPS - (d : ℚ)| ≤ |(d : ℚ)| / 2 ^ 53 ∧
      (IsBinary64 ((d : ℚ) / CPS) → e = (d : ℚ) / CPS) := by
  have hC : (0 : ℚ) < CPS := by exact_mod_cast h0
  have hC' : (CPS : ℚ) ≤ 2 ^ 53 := by exact_mod_cast h
  have hd1 : (1 : ℚ) ≤ |(d : ℚ)| := by
    have : (1 : ℤ) ≤ |d| := Int.one_le_abs hne
    exact_mod_cast this
  have hd2 : |(d : ℚ)| ≤ 2 ^ 53 := by exact_mod_cast hd
  have habs : |(d : ℚ) / CPS| = |(d : ℚ)| / CPS := by rw [abs_div, abs_of_pos hC]
  have hlo : (2 : ℚ) ^ (-1022 : ℤ) ≤ |(d : ℚ) / CPS| := by
    rw [habs, le_div_iff₀ hC]
    calc (2 : ℚ) ^ (-1022 : ℤ) * CPS ≤ 2 ^ (-1022 : ℤ) * 2 ^ 53 :=
          mul_le_mul_of_nonneg_left hC' (by positivity)
      _ ≤ 1 := by norm_num
      _ ≤ |(d : ℚ)| := hd1
  have hhi : |(d : ℚ) / CPS| ≤ 2 ^ 1023 := by
    rw [habs, div_le_iff₀ hC]
    have : (1 : ℚ) ≤ CPS := by exact_mod_cast h0
    calc |(d : ℚ)| ≤ 2 ^ 53 := hd2
      _ ≤ 2 ^ 1023 * 1 := by norm_num
      _ ≤ 2 ^ 1023 * CPS := mul_le_mul_of_nonneg_left this (by positivity)
  obtain ⟨e, he, he0, herr⟩ := roundNE_normal hlo hhi
  have hval : IsBinary64 e := by
    have := roundNE_valid ((d : ℚ) / CPS)
    rw [he] at this
    exact this
  refine ⟨e, by rw [elapsedSeconds_eq_roundNE h0 h hd, he], he, hval, herr, ?_, ?_⟩
  · have e1 : e * CPS - d = (e - d / CPS) * CPS := by field_simp
    rw [e1, abs_mul, abs_of_pos hC]
    calc |e - d / CPS| * CPS ≤ |(d : ℚ) / CPS| / 2 ^ 53 * CPS :=
          mul_le_mul_of_nonneg_right herr hC.le
      _ = |(d : ℚ)| / 2 ^ 53 := by rw [habs]; field_simp; ring
  · intro hb
    have := roundNE_of_isBinary64 hb
    rw [he] at this
    exact Double.num.inj this

/-- For a nonzero tick difference of magnitude at most `2 ^ 63` the
elapsed-seconds value is the rounding of the quotient of the converted
difference by `CLOCKS_PER_SEC`: a binary64 number within relative error
`2 ^ (-51)` of the real quotient (the conversion and the division each round
once). -/
theorem elapsedSeconds_finite {CPS d : ℤ} (h0 : 0 < CPS) (h : CPS ≤ 2 ^ 53)
    (hd : |d| ≤ 2 ^ 63) (hne : d ≠ 0) :
    ∃ r e : ℚ, ofInt d = num r ∧ roundNE (r / CPS) = num e ∧
      elapsedSeconds CPS d = num e ∧ IsBinary64 e ∧
      |e - (d : ℚ) / CPS| ≤ |(d : ℚ) / CPS| / 2 ^ 51 := by
  have hC : (0 : ℚ) < CPS := by exact_mod_cast h0
  have hC1 : (1 : ℚ) ≤ CPS := by exact_mod_cast h0
  have hC' : (CPS : ℚ) ≤ 2 ^ 53 := by exact_mod_cast h
  have hd1 : (1 : ℚ) ≤ |(d : ℚ)| := by
    have : (1 : ℤ) ≤ |d| := Int.one_le_abs hne
    exact_mod_cast this
  have hd2 : |(d : ℚ)| ≤ 2 ^ 63 := by exact_mod_cast hd
  -- the conversion of the difference
  obtain ⟨r, hr, hr0, hrerr⟩ := roundNE_normal (x := (d : ℚ))
    (le_trans (by norm_num) hd1) (le_trans hd2 (by norm_num))
  have hr1 : |r - d| ≤ |(d : ℚ)| / 2 ^ 53 := hrerr
  have hrabs : |r| ≤ |(d : ℚ)| + |(d : ℚ)| / 2 ^ 53 := by
    have := abs_sub_abs_le_abs_sub r (d : ℚ)
    linarith
  have hrabs' : |(d : ℚ)| - |(d : ℚ)| / 2 ^ 53 ≤ |r| := by
    have := abs_sub_abs_le_abs_sub (d : ℚ) r
    rw [abs_sub_comm] at this
    linarith
  -- the division
  have habs : |r / CPS| = |r| / CPS := by rw [abs_div, abs_of_pos hC]
  have hlo : (2 : ℚ) ^ (-1022 : ℤ) ≤ |r / CPS| := by
    rw [habs, le_div_iff₀ hC]
    calc (2 : ℚ) ^ (-1022 : ℤ) * CPS ≤ 2 ^ (-1022 : ℤ) * 2 ^ 53 :=
          mul_le_mul_of_nonneg_left hC' (by positivity)
      _ ≤ 1 / 2 := by norm_num
      _ ≤ |r| := by linarith
  have hhi : |r / CPS| ≤ 2 ^ 1023 := by
    rw [habs, div_le_iff₀ hC]
    calc |r| ≤ 2 ^ 64 := by linarith
      _ ≤ 2 ^ 1023 * 1 := by norm_num
      _ ≤ 2 ^ 1023 * CPS := mul_le_mul_of_nonneg_left hC1 (by positivity)
  obtain ⟨e, he, he0, herr⟩ := roundNE_normal hlo hhi
  have hbin : IsBinary64 e := by
    have := roundNE_valid (r / CPS)
    rw [he] at this
    exact this
  refine ⟨r, e, hr, he, ?_, hbin, ?_⟩
  · rw [elapsedSeconds_eq_fdiv, ofInt_CPS h0 h]
    unfold ofInt
    rw [hr]
    exact he
  · have hx : |(d : ℚ) / CPS| = |(d : ℚ)| / CPS := by rw [abs_div, abs_of_pos hC]
    have h2 : |r / CPS - d / CPS| ≤ |(d : ℚ)| / CPS / 2 ^ 53 := by
      rw [← sub_div, abs_div, abs_of_pos hC]
      calc |r - d| / CPS ≤ |(d : ℚ)| / 2 ^ 53 / CPS := div_le_div_of_nonneg_right hr1 hC.le
        _ = |(d : ℚ)| / CPS / 2 ^ 53 := by ring
    have h3 : |r / CPS| / 2 ^ 53 ≤ (|(d : ℚ)| / CPS + |(d : ℚ)| / CPS / 2 ^ 53) / 2 ^ 53 := by
      rw [habs]
      apply div_le_div_of_nonneg_right _ (by positivity)
      calc |r| / CPS ≤ (|(d : ℚ)| + |(d : ℚ)| / 2 ^ 53) / CPS :=
            div_le_div_of_nonneg_right hrabs hC.le
        _ = |(d : ℚ)| / CPS + |(d : ℚ)| / CPS / 2 ^ 53 := by ring
    have hq : 0 ≤ |(d : ℚ)| / CPS := div_nonneg (abs_nonneg _) hC.le
    calc |e - d / CPS| = |(e - r / CPS) + (r / CPS - d / CPS)| := by ring_nf
      _ ≤ |e - r / CPS| + |r / CPS - d / CPS| := abs_add _ _
      _ ≤ (|(d : ℚ)| / CPS + |(d : ℚ)| / CPS / 2 ^ 53) / 2 ^ 53 + |(d : ℚ)| / CPS / 2 ^ 53 := by
          linarith
      _ ≤ |(d : ℚ) / CPS| / 2 ^ 51 := by
          rw [hx]
          have : (|(d : ℚ)| / CPS + |(d : ℚ)| / CPS / 2 ^ 53) / 2 ^ 53 + |(d : ℚ)| / CPS / 2 ^ 53
              = |(d : ℚ)| / CPS * ((1 + 1 / 2 ^ 53) / 2 ^ 53 + 1 / 2 ^ 53) := by ring
          rw [this, div_eq_mul_one_div (|(d : ℚ)| / CPS) (2 ^ 51)]
          exact mul_le_mul_of_nonneg_left (by norm_num) hq

/-! ## Concrete values -/

theorem roundNE_at_1 : roundNE (1 / 1000000) = num (4722366482869645 / 2 ^ 72) := by
  have h := roundNE_eq_of_bounds (x := 1 / 1000000) (e := -20) (n := 4722366482869645)
    (by norm_num) (by norm_num) (by norm_num) (by norm_num) (by norm_num) (by norm_num)
    (by norm_num)
  rw [h]; norm_num

theorem roundNE_at_3 : roundNE (3 / 1000000) = num (1770887431076117 / 2 ^ 69) := by
  have h := roundNE_eq_of_bounds (x := 3 / 1000000) (e := -19) (n := 7083549724304468)
    (by norm_num) (by norm_num) (by norm_num) (by norm_num) (by norm_num) (by norm_num)
    (by norm_num)
  rw [h]; norm_num

theorem roundNE_at_123 : roundNE (123 / 1000000) = num (2268949521066275 / 2 ^ 64) := by
  have h := roundNE_eq_of_bounds (x := 123 / 1000000) (e := -13) (n := 4537899042132550)
    (by norm_num) (by norm_num) (by norm_num) (by norm_num) (by norm_num) (by norm_num)
    (by norm_num)
  rw [h]; norm_num

theorem roundNE_at_1000001 :
    roundNE (1000001 / 1000000) = num (4503604130970123 / 2 ^ 52) := by
  have h := roundNE_eq_of_bounds (x := 1000001 / 1000000) (e := 0) (n := 4503604130970123)
    (by norm_num) (by norm_num) (by norm_num) (by norm_num) (by norm_num) (by norm_num)
    (by norm_num)
  rw [h]; norm_num

theorem roundNE_product_123 :
    roundNE (2268949521066275 / 2 ^ 64 * 1000000) = num (8655355533852673 / 2 ^ 46) := by
  have h := roundNE_eq_of_bounds (x := 2268949521066275 / 2 ^ 64 * 1000000) (e := 6)
    (n := 8655355533852673)
    (by norm_num) (by norm_num) (by norm_num) (by norm_num) (by norm_num) (by norm_num)
    (by norm_num)
  rw [h]; norm_num

theorem roundNE_product_1000001 :
    roundNE (4503604130970123 / 2 ^ 52 * 1000000) = num (8589943181934591 / 2 ^ 33) := by
  have h := roundNE_eq_of_bounds (x := 4503604130970123 / 2 ^ 52 * 1000000) (e := 19)
    (n := 8589943181934591)
    (by norm_num) (by norm_num) (by norm_num) (by norm_num) (by norm_num) (by norm_num)
    (by norm_num)
  rw [h]; norm_num

/-- The elapsed-seconds value for one tick at a million ticks per second. -/
theorem elapsedSeconds_at_1 :
    elapsedSeconds 1000000 1 = num (4722366482869645 / 2 ^ 72) := by
  rw [elapsedSeconds_eq_roundNE (by norm_num) (by norm_num) (by norm_num)]
  rw [show ((1 : ℤ) : ℚ) / ((1000000 : ℤ) : ℚ) = 1 / 1000000 by norm_num, roundNE_at_1]

theorem elapsedSeconds_at_3 :
    elapsedSeconds 1000000 3 = num (1770887431076117 / 2 ^ 69) := by
  rw [elapsedSeconds_eq_roundNE (by norm_num) (by norm_num) (by norm_num)]
  rw [show ((3 : ℤ) : ℚ) / ((1000000 : ℤ) : ℚ) = 3 / 1000000 by norm_num, roundNE_at_3]

theorem elapsedSeconds_at_123 :
    elapsedSeconds 1000000 123 = num (2268949521066275 / 2 ^ 64) := by
  rw [elapsedSeconds_eq_roundNE (by norm_num) (by norm_num) (by norm_num)]
  rw [show ((123 : ℤ) : ℚ) / ((1000000 : ℤ) : ℚ) = 123 / 1000000 by norm_num, roundNE_at_123]

theorem elapsedSeconds_at_1000001 :
    elapsedSeconds 1000000 1000001 = num (4503604130970123 / 2 ^ 52) := by
  rw [elapsedSeconds_eq_roundNE (by norm_num) (by norm_num) (by norm_num)]
  rw [show ((1000001 : ℤ) : ℚ) / ((1000000 : ℤ) : ℚ) = 1000001 / 1000000 by norm_num,
    roundNE_at_1000001]

/-- The `double` product of the elapsed-seconds value for `123` ticks with
`CLOCKS_PER_SEC = 1000000`. -/
theorem fmul_elapsed_123 :
    fmul (num (2268949521066275 / 2 ^ 64)) (ofInt 1000000) = num (8655355533852673 / 2 ^ 46) := by
  rw [ofInt_of_abs_le (by norm_num) (by norm_num)]
  simp only [fmul]
  rw [show (2268949521066275 / 2 ^ 64 : ℚ) * ((1000000 : ℤ) : ℚ)
      = 2268949521066275 / 2 ^ 64 * 1000000 by norm_num, roundNE_product_123]

/-- The `double` product of the elapsed-seconds value for `1000001` ticks with
`CLOCKS_PER_SEC = 1000000`. -/
theorem fmul_elapsed_1000001 :
    fmul (num (4503604130970123 / 2 ^ 52)) (ofInt 1000000) = num (8589943181934591 / 2 ^ 33) := by
  rw [ofInt_of_abs_le (by norm_num) (by norm_num)]
  simp only [fmul]
  rw [show (4503604130970123 / 2 ^ 52 : ℚ) * ((1000000 : ℤ) : ℚ)
      = 4503604130970123 / 2 ^ 52 * 1000000 by norm_num, roundNE_product_1000001]

theorem roundNE_neg_num {x r : ℚ} (hx : 0 < x) (h : roundNE x = num r) :
    roundNE (-x) = num (-r) := by
  rw [roundNE_of_pos hx] at h
  rw [roundNE_of_neg (neg_neg_of_pos hx), neg_neg]
  split_ifs at h ⊢
  rw [Double.num.inj h]

theorem roundNE_at_max : roundNE (9223372036854775807 : ℚ) = num (2 ^ 63) := by
  have h := roundNE_eq_of_bounds (x := 9223372036854775807) (e := 62) (n := 9007199254740992)
    (by norm_num) (by norm_num) (by norm_num) (by norm_num) (by norm_num) (by norm_num)
    (by norm_num)
  rw [h]; norm_num

theorem roundNE_two_pow_63 : roundNE (2 ^ 63 : ℚ) = num (2 ^ 63) := by
  have h := roundNE_eq_of_bounds (x := 2 ^ 63) (e := 63) (n := 4503599627370496)
    (by norm_num) (by norm_num) (by norm_num) (by norm_num) (by norm_num) (by norm_num)
    (by norm_num)
  rw [h]; norm_num

theorem roundNE_quotient_max :
    roundNE (2 ^ 63 / 1000000 : ℚ) = num (4722366482869645 / 2 ^ 9) := by
  have h := roundNE_eq_of_bounds (x := 2 ^ 63 / 1000000) (e := 43) (n := 4722366482869645)
    (by norm_num) (by norm_num) (by norm_num) (by norm_num) (by norm_num) (by norm_num)
    (by norm_num)
  rw [h]; norm_num

/-- The elapsed-seconds value for the largest `clock_t` difference, `2 ^ 63 - 1`
ticks, at a million ticks per second. -/
theorem elapsedSeconds_at_max :
    elapsedSeconds 1000000 9223372036854775807 = num (4722366482869645 / 2 ^ 9) := by
  have hC : ofInt 1000000 = num ((1000000 : ℤ) : ℚ) := ofInt_CPS (by norm_num) (by norm_num)
  have hd : ofInt 9223372036854775807 = num (2 ^ 63) := by
    unfold ofInt
    rw [show ((9223372036854775807 : ℤ) : ℚ) = 9223372036854775807 by norm_num, roundNE_at_max]
  rw [elapsedSeconds_eq_fdiv, hC, hd]
  simp only [fdiv]
  rw [show (2 ^ 63 : ℚ) / ((1000000 : ℤ) : ℚ) = 2 ^ 63 / 1000000 by norm_num,
    roundNE_quotient_max]

/-- The elapsed-seconds value for the smallest `clock_t` difference, `-2 ^ 63`
ticks, at a million ticks per second. -/
theorem elapsedSeconds_at_min :
    elapsedSeconds 1000000 (-9223372036854775808) = num (-(4722366482869645 / 2 ^ 9)) := by
  have hC : ofInt 1000000 = num ((1000000 : ℤ) : ℚ) := ofInt_CPS (by norm_num) (by norm_num)
  have hd : ofInt (-9223372036854775808) = num (-(2 ^ 63)) := by
    unfold ofInt
    rw [show ((-9223372036854775808 : ℤ) : ℚ) = -(2 ^ 63) by norm_num,
      roundNE_neg_num (by norm_num) roundNE_two_pow_63]
  rw [elapsedSeconds_eq_fdiv, hC, hd]
  simp only [fdiv]
  rw [show (-(2 ^ 63) : ℚ) / ((1000000 : ℤ) : ℚ) = -(2 ^ 63 / 1000000) by norm_num,
    roundNE_neg_num (by norm_num) roundNE_quotient_max]

/-! ## The timer state -/

theorem ClockT.wrap_val_of_fits {n : ℤ} (hlo : -2 ^ 63 ≤ n) (hhi : n < 2 ^ 63) :
    (ClockT.wrap n).val = n := by
  show (n + 2 ^ 63) % 2 ^ 64 - 2 ^ 63 = n
  omega

/-- When the exact difference fits `clock_t` the subtraction gives it. -/
theorem ClockT.sub_val_of_fits {a b : ClockT} (hlo : -2 ^ 63 ≤ a.val - b.val)
    (hhi : a.val - b.val < 2 ^ 63) : (ClockT.sub a b).val = a.val - b.val :=
  ClockT.wrap_val_of_fits hlo hhi

theorem ClockT.sub_zero_val (a : ClockT) : (ClockT.sub a ClockT.zero).val = a.val := by
  have h1 := a.lo
  have h2 := a.hi
  have hz : ClockT.zero.val = 0 := rfl
  rw [ClockT.sub_val_of_fits (by rw [hz]; omega) (by rw [hz]; omega), hz, sub_zero]

theorem ClockT.sub_self_val (a : ClockT) : (ClockT.sub a a).val = 0 := by
  rw [ClockT.sub_val_of_fits (by rw [sub_self]; norm_num) (by rw [sub_self]; norm_num), sub_self]

theorem run_cons (CPS : ℤ) (render : Double → String) (w : World) (x : Call) (rest : List Call) :
    run CPS render w (x :: rest) = run CPS render (step CPS render w x) rest := rfl

theorem run_append (CPS : ℤ) (render : Double → String) (w : World) (xs ys : List Call) :
    run CPS render w (xs ++ ys) = run CPS render (run CPS render w xs) ys := by
  unfold run; rw [List.foldl_append]

/-- A sequence without `tic` leaves `start` alone. -/
theorem run_start_of_no_tic (CPS : ℤ) (render : Double → String) (calls : List Call) (w : World)
    (h : ∀ c, Call.tic c ∉ calls) : (run CPS render w calls).start = w.start := by
  induction calls generalizing w with
  | nil => rfl
  | cons x rest ih =>
    have hrest : ∀ c, Call.tic c ∉ rest := fun c hc => h c (List.mem_cons_of_mem _ hc)
    rw [run_cons, ih _ hrest]
    cases x with
    | tic c => exact absurd (List.mem_cons_self _ _) (h c)
    | toc c => rfl

theorem run_start_eq (CPS : ℤ) (render : Double → String) (calls : List Call) (w : World) :
    (run CPS render w calls).start = (ticReadings calls).getLast?.getD w.start := by
  induction calls generalizing w with
  | nil => rfl
  | cons x rest ih =>
    rw [run_cons, ih]
    cases x with
    | tic c =>
      simp only [step, tic, ticReadings]
      cases h : ticReadings rest with
      | nil => rfl
      | cons y ys => rw [List.getLast?_eq_getLast _ (List.cons_ne_nil _ _)]; rfl
    | toc c => rfl

/-! ## Text -/

theorem lineBreaks_append (s t : String) : lineBreaks (s ++ t) = lineBreaks s + lineBreaks t := by
  simp [lineBreaks, String.toList, List.count_append]

theorem toc_cout_eq (CPS : ℤ) (render : Double → String) (c : ClockT) (w : World) :
    (toc CPS render c w).cout
      = w.cout ++ "elapsed time: " ++ render (elapsedSeconds CPS (ClockT.sub c w.start).val)
          ++ " seconds" ++ "\n" := rfl

/-- When the exact difference fits `clock_t`, `toc` renders the elapsed-seconds
value of that difference. -/
theorem toc_cout_of_fits (CPS : ℤ) (render : Double → String) (c : ClockT) (w : World)
    (hlo : -2 ^ 63 ≤ c.val - w.start.val) (hhi : c.val - w.start.val < 2 ^ 63) :
    (toc CPS render c w).cout
      = w.cout ++ "elapsed time: " ++ render (elapsedSeconds CPS (c.val - w.start.val))
          ++ " seconds" ++ "\n" := by
  rw [toc_cout_eq, ClockT.sub_val_of_fits hlo hhi]

theorem toDigitsCore_eq_digits (fuel : ℕ) : ∀ (n : ℕ) (acc : List Char), 0 < n → n < fuel →
    Nat.toDigitsCore 10 fuel n acc = ((Nat.digits 10 n).reverse.map Nat.digitChar) ++ acc := by
  induction fuel with
  | zero => intro n acc _ h; omega
  | succ fuel ih =>
    intro n acc hn hlt
    have hd : Nat.digits 10 n = (n % 10) :: Nat.digits 10 (n / 10) :=
      Nat.digits_def' (by norm_num) hn
    rw [Nat.toDigitsCore]
    by_cases h0 : n / 10 = 0
    · simp [h0, hd]
    · have hpos : 0 < n / 10 := Nat.pos_of_ne_zero h0
      have hlt' : n / 10 < fuel := by omega
      simp only [h0, if_false]
      rw [ih (n / 10) _ hpos hlt', hd]
      simp

/-- The characters of `Nat.toDigits 10 n` are the base-10 digits of `n`, most
significant first. -/
theorem toDigits_eq_digits {n : ℕ} (hn : 0 < n) :
    Nat.toDigits 10 n = (Nat.digits 10 n).reverse.map Nat.digitChar := by
  unfold Nat.toDigits
  rw [toDigitsCore_eq_digits (n + 1) n [] hn (by omega)]
  simp

theorem digitChar_ne_newline {d : ℕ} (h : d < 10) : Nat.digitChar d ≠ '\n' := by
  interval_cases d <;> decide

theorem count_newline_toDigits (n : ℕ) : (Nat.toDigits 10 n).count '\n' = 0 := by
  rcases Nat.eq_zero_or_pos n with rfl | hn
  · decide
  · rw [toDigits_eq_digits hn, List.count_eq_zero]
    intro hmem
    obtain ⟨d, hmem', hd⟩ := List.mem_map.mp hmem
    exact digitChar_ne_newline (Nat.digits_lt_base (by norm_num) (List.mem_reverse.mp hmem')) hd

theorem lineBreaks_decimal (a : ℤ) : lineBreaks (decimal a) = 0 := by
  unfold decimal
  split_ifs
  · rw [lineBreaks_append]
    have : lineBreaks "-" = 0 := by decide
    rw [this]
    simp [lineBreaks, String.toList, count_newline_toDigits]
  · simp [lineBreaks, String.toList, count_newline_toDigits]

theorem decimal_toList (a : ℤ) :
    (decimal a).toList = (if a < 0 then ['-'] else [])
      ++ (if a = 0 then ['0'] else (Nat.digits 10 a.natAbs).reverse.map Nat.digitChar) := by
  unfold decimal
  rcases lt_trichotomy a 0 with h | h | h
  · have hn : 0 < a.natAbs := Int.natAbs_pos.mpr h.ne
    rw [if_pos h, if_pos h, if_neg h.ne, toDigits_eq_digits hn]
    rfl
  · subst h
    decide
  · have hn : 0 < a.natAbs := Int.natAbs_pos.mpr h.ne'
    rw [if_neg (not_lt.mpr h.le), if_neg (not_lt.mpr h.le), if_neg h.ne', toDigits_eq_digits hn]
    rfl

theorem lineBreaks_renderSample (x : Double) : lineBreaks (renderSample x) = 0 := by
  cases x with
  | zero s => cases s <;> decide
  | num q =>
    simp only [renderSample]
    split_ifs
    · exact lineBreaks_decimal _
    · rw [lineBreaks_append, lineBreaks_append, lineBreaks_decimal, lineBreaks_decimal]
      decide
  | inf s => cases s <;> decide
  | nan => decide

/-! ## The operators at concrete values -/

theorem roundNE_intCast {n : ℤ} (h0 : n ≠ 0) (h : |n| ≤ 2 ^ 53) : roundNE (n : ℚ) = num n :=
  roundNE_of_isBinary64 (isBinary64_intCast h0 h)

/-- Halving a binary64 number of magnitude at least `2 ^ (-1021)` is exact. -/
theorem isBinary64_half {q : ℚ} (hq : IsBinary64 q) (hn : (2 : ℚ) ^ (-1021 : ℤ) ≤ |q|) :
    IsBinary64 (q / 2) := by
  obtain ⟨h0, hlt, m, hm⟩ := hq
  have ha : 0 < |q| := abs_pos.mpr h0
  have habs : |q / 2| = |q| / 2 := by rw [abs_div]; norm_num
  have hlog : (-1021 : ℤ) ≤ Int.log 2 |q| := by
    rw [← Int.zpow_le_iff_le_log (by norm_num) ha]; simpa using hn
  have he : expo |q| = Int.log 2 |q| := max_eq_left (by omega)
  have h1 := two_zpow_expo_le ha he
  have h2 := lt_two_zpow_expo_succ |q|
  have hexp : expo (|q| / 2) = expo |q| - 1 := by
    apply expo_eq_of_bounds (by omega)
    · rw [zpow_sub_one₀ (by norm_num)]
      linarith
    · rw [sub_add_cancel]
      rw [zpow_add_one₀ (by norm_num)] at h2
      linarith
  refine ⟨div_ne_zero h0 (by norm_num), ?_, ?_⟩
  · rw [habs]; linarith
  · rw [habs]
    refine exists_eq_mul_quantum (k := m) (j := expo |q| - 53) ?_ (by rw [hexp]; omega)
    have hq2 : (2 : ℚ) ^ (expo |q| - 52) = 2 ^ (expo |q| - 53) * 2 := by
      rw [← zpow_add_one₀ (by norm_num)]; congr 1; ring
    have hm' : |q| = m * (2 ^ (expo |q| - 53) * 2) := by rw [← hq2]; exact hm
    rw [div_eq_iff (by norm_num), mul_assoc]
    exact hm'

theorem fdiv_two {q : ℚ} (hq : IsBinary64 q) (hn : (2 : ℚ) ^ (-1021 : ℤ) ≤ |q|) :
    fdiv (num q) (ofInt 2) = num (q / 2) := by
  rw [ofInt_of_abs_le (by norm_num) (by norm_num)]
  simp only [fdiv]
  have : q / ((2 : ℤ) : ℚ) = q / 2 := by norm_num
  rw [this]
  exact roundNE_of_isBinary64 (isBinary64_half hq hn)

theorem operators_at_two :
    fadd (num 2) (ofInt 1) = num 3 ∧ fmul (ofInt 3) (num 2) = num 6 ∧
    fadd (num 2) (num 2) = num 4 ∧ fmul (num 2) (num 2) = num 4 ∧
    fdiv (num 2) (ofInt 2) = num 1 := by
  have h1 : ofInt 1 = num 1 := by
    rw [ofInt_of_abs_le (by norm_num) (by norm_num)]; norm_num
  have h2 : ofInt 2 = num 2 := by
    rw [ofInt_of_abs_le (by norm_num) (by norm_num)]; norm_num
  have h3 : ofInt 3 = num 3 := by
    rw [ofInt_of_abs_le (by norm_num) (by norm_num)]; norm_num
  have r1 : roundNE 1 = num 1 := by
    have := roundNE_intCast (n := 1) (by norm_num) (by norm_num); simpa using this
  have r3 : roundNE 3 = num 3 := by
    have := roundNE_intCast (n := 3) (by norm_num) (by norm_num); simpa using this
  have r4 : roundNE 4 = num 4 := by
    have := roundNE_intCast (n := 4) (by norm_num) (by norm_num); simpa using this
  have r6 : roundNE 6 = num 6 := by
    have := roundNE_intCast (n := 6) (by norm_num) (by norm_num); simpa using this
  rw [h1, h2, h3]
  refine ⟨?_, ?_, ?_, ?_, ?_⟩
  · show roundNE (2 + 1) = num 3
    rw [show (2 : ℚ) + 1 = 3 by norm_num, r3]
  · show roundNE (3 * 2) = num 6
    rw [show (3 : ℚ) * 2 = 6 by norm_num, r6]
  · show roundNE (2 + 2) = num 4
    rw [show (2 : ℚ) + 2 = 4 by norm_num, r4]
  · show roundNE (2 * 2) = num 4
    rw [show (2 : ℚ) * 2 = 4 by norm_num, r4]
  · show roundNE (2 / 2) = num 1
    rw [show (2 : ℚ) / 2 = 1 by norm_num, r1]

/-! ## The claims -/

/-- Claim C1. The variable `start` after any sequence of `tic`/`toc` calls: when the
sequence contains a `tic`, it is the reading of the last one, whatever `start`
held before; from the initial state a sequence without `tic` leaves it `0`.
Equivalently it is the last element of the `tic` readings, default `0`. -/
theorem start_after_run (CPS : ℤ) (render : Double → String) :
    (∀ (w : World) (before after : List Call) (c : ClockT), (∀ k, Call.tic k ∉ after) →
        (run CPS render w (before ++ Call.tic c :: after)).start = c) ∧
    (∀ (input : String) (calls : List Call), (∀ k, Call.tic k ∉ calls) →
        (run CPS render (World.initial input) calls).start = ClockT.zero) ∧
    (∀ (input : String) (calls : List Call),
        (run CPS render (World.initial input) calls).start
          = (ticReadings calls).getLast?.getD ClockT.zero) := by
  refine ⟨?_, ?_, ?_⟩
  · intro w before after c h
    rw [run_append, run_cons, run_start_of_no_tic _ _ _ _ h]
    rfl
  · intro input calls h
    rw [run_start_of_no_tic _ _ _ _ h]
    rfl
  · intro input calls
    rw [run_start_eq]
    rfl

theorem start_after_run_witness :
    (run 1000000 (fun _ => "") (World.initial "")
      ([Call.tic (ClockT.wrap 5), Call.toc (ClockT.wrap 9)] ++ Call.tic (ClockT.wrap 42)
        :: [Call.toc (ClockT.wrap 50), Call.toc (ClockT.wrap 61)])).start = ClockT.wrap 42 :=
  (start_after_run 1000000 (fun _ => "")).1 (World.initial "")
    [Call.tic (ClockT.wrap 5), Call.toc (ClockT.wrap 9)]
    [Call.toc (ClockT.wrap 50), Call.toc (ClockT.wrap 61)] (ClockT.wrap 42) (by simp)

/-- Counterexample to claim C2. With `CLOCKS_PER_SEC = 1000000` and `start = 0`:
at a clock reading of `1` the elapsed-seconds value is the binary64 number
`4722366482869645 / 2 ^ 72`, which is not `1 / 1000000`, and its product with
`1000000` is not `1`; at a clock reading of `1000001` the elapsed-seconds value
is `4503604130970123 / 2 ^ 52`, its product with `1000000` is not `1000001`,
and the `double` product with `CLOCKS_PER_SEC` is `8589943181934591 / 2 ^ 33`,
not the `double` `1000001` either. -/
theorem elapsedSeconds_not_exact :
    elapsedSeconds 1000000 (ClockT.sub (ClockT.wrap 1) (World.initial "").start).val
      = num (4722366482869645 / 2 ^ 72) ∧
    (4722366482869645 / 2 ^ 72 : ℚ) ≠ 1 / 1000000 ∧
    (4722366482869645 / 2 ^ 72 : ℚ) * 1000000 ≠ 1 ∧
    elapsedSeconds 1000000 (ClockT.sub (ClockT.wrap 1000001) (World.initial "").start).val
      = num (4503604130970123 / 2 ^ 52) ∧
    (4503604130970123 / 2 ^ 52 : ℚ) * 1000000 ≠ 1000001 ∧
    fmul (num (4503604130970123 / 2 ^ 52)) (ofInt 1000000)
      = num (8589943181934591 / 2 ^ 33) ∧
    ofInt 1000001 = num 1000001 ∧
    (8589943181934591 / 2 ^ 33 : ℚ) ≠ 1000001 := by
  have h1 : (ClockT.sub (ClockT.wrap 1) (World.initial "").start).val = 1 := by decide
  have h2 : (ClockT.sub (ClockT.wrap 1000001) (World.initial "").start).val = 1000001 := by
    decide
  refine ⟨?_, by norm_num, by norm_num, ?_, by norm_num, fmul_elapsed_1000001, ?_, by norm_num⟩
  · rw [h1]; exact elapsedSeconds_at_1
  · rw [h2]; exact elapsedSeconds_at_1000001
  · rw [ofInt_of_abs_le (by norm_num) (by norm_num)]
    norm_num

/-- Claim C2, amended. For `0 < CLOCKS_PER_SEC ≤ 2 ^ 53` and a reading `c` whose
exact difference `d = c - start` fits `clock_t` (`-2 ^ 63 ≤ d < 2 ^ 63`): when
`d = 0` `toc` renders `+0.0`; otherwise it renders the binary64 number
`e = roundNE (r / CLOCKS_PER_SEC)`, where `r = roundNE d` is the conversion of
`d` to `double`: two roundings to nearest, no integer truncation, with `e`
nonzero and within relative error `2 ^ (-51)` of the real quotient
`d / CLOCKS_PER_SEC`. When `|d| ≤ 2 ^ 53` the conversion is exact (`r = d`), so
`e = roundNE (d / CLOCKS_PER_SEC)`, the relative error is at most `2 ^ (-53)`,
`e * CLOCKS_PER_SEC` is within `|d| / 2 ^ 53` of `d`, and `e` is the quotient
itself whenever the quotient is a binary64 number. -/
theorem toc_elapsed_rounded (CPS : ℤ) (render : Double → String) (c : ClockT) (w : World)
    (h0 : 0 < CPS) (h : CPS ≤ 2 ^ 53)
    (hlo : -2 ^ 63 ≤ c.val - w.start.val) (hhi : c.val - w.start.val < 2 ^ 63) :
    (c.val = w.start.val →
      (toc CPS render c w).cout
        = w.cout ++ "elapsed time: " ++ render (zero false) ++ " seconds" ++ "\n") ∧
    (c.val ≠ w.start.val → ∃ r e : ℚ,
      ofInt (c.val - w.start.val) = num r ∧
      roundNE (r / CPS) = num e ∧
      elapsedSeconds CPS (ClockT.sub c w.start).val = num e ∧
      (toc CPS render c w).cout
        = w.cout ++ "elapsed time: " ++ render (num e) ++ " seconds" ++ "\n" ∧
      IsBinary64 e ∧
      |e - ((c.val - w.start.val : ℤ) : ℚ) / CPS|
        ≤ |((c.val - w.start.val : ℤ) : ℚ) / CPS| / 2 ^ 51 ∧
      (|c.val - w.start.val| ≤ 2 ^ 53 →
        r = ((c.val - w.start.val : ℤ) : ℚ) ∧
        roundNE (((c.val - w.start.val : ℤ) : ℚ) / CPS) = num e ∧
        |e - ((c.val - w.start.val : ℤ) : ℚ) / CPS|
          ≤ |((c.val - w.start.val : ℤ) : ℚ) / CPS| / 2 ^ 53 ∧
        |e * CPS - ((c.val - w.start.val : ℤ) : ℚ)|
          ≤ |((c.val - w.start.val : ℤ) : ℚ)| / 2 ^ 53 ∧
        (IsBinary64 (((c.val - w.start.val : ℤ) : ℚ) / CPS) →
          e = ((c.val - w.start.val : ℤ) : ℚ) / CPS))) := by
  constructor
  · intro hc
    rw [toc_cout_of_fits CPS render c w hlo hhi, hc, sub_self, elapsedSeconds_zero h0 h]
  · intro hc
    have hne : c.val - w.start.val ≠ 0 := sub_ne_zero.mpr hc
    have habs : |c.val - w.start.val| ≤ 2 ^ 63 := abs_le.mpr ⟨hlo, hhi.le⟩
    obtain ⟨r, e, hr, hre, he, hbin, herr⟩ := elapsedSeconds_finite h0 h habs hne
    refine ⟨r, e, hr, hre, ?_, ?_, hbin, herr, fun hd53 => ?_⟩
    · rw [ClockT.sub_val_of_fits hlo hhi, he]
    · rw [toc_cout_of_fits CPS render c w hlo hhi, he]
    · obtain ⟨e', he', hre', _, hrest⟩ := elapsedSeconds_normal h0 h hd53 hne
      have hee : e' = e := Double.num.inj (he'.symm.trans he)
      rw [hee] at hrest hre'
      have hrd : r = ((c.val - w.start.val : ℤ) : ℚ) := by
        have := ofInt_of_abs_le hne hd53
        rw [hr] at this
        exact Double.num.inj this
      exact ⟨hrd, hre', hrest⟩

theorem toc_elapsed_rounded_witness :
    ∃ r e : ℚ,
      ofInt ((ClockT.wrap 1).val - (World.initial "").start.val) = num r ∧
      roundNE (r / (1000000 : ℤ)) = num e ∧
      elapsedSeconds 1000000 (ClockT.sub (ClockT.wrap 1) (World.initial "").start).val = num e ∧
      (toc 1000000 (fun _ => "1e-06") (ClockT.wrap 1) (World.initial "")).cout
        = (World.initial "").cout ++ "elapsed time: " ++ (fun _ => "1e-06") (num e)
            ++ " seconds" ++ "\n" ∧
      IsBinary64 e ∧
      roundNE ((((ClockT.wrap 1).val - (World.initial "").start.val : ℤ) : ℚ) / (1000000 : ℤ))
        = num e := by
  obtain ⟨r, e, h1, h2, h3, h4, h5, _, h7⟩ :=
    (toc_elapsed_rounded 1000000 (fun _ => "1e-06") (ClockT.wrap 1) (World.initial "")
      (by decide) (by decide) (by decide) (by decide)).2 (by decide)
  exact ⟨r, e, h1, h2, h3, h4, h5, (h7 (by decide)).2.1⟩

/-- Claim C3. One call of `toc` appends to `cout` the text
`"elapsed time: "`, the rendering of the elapsed-seconds value, `" seconds"` and
one newline, and nothing else; it reads no input. When renderings contain no
newline, the text before the final newline contains none: exactly one line is
written. -/
theorem toc_cout (CPS : ℤ) (render : Double → String) (c : ClockT) (w : World) :
    (toc CPS render c w).cout
        = w.cout ++ ("elapsed time: "
            ++ render (elapsedSeconds CPS (ClockT.sub c w.start).val)
            ++ " seconds" ++ "\n") ∧
    (toc CPS render c w).cin = w.cin ∧
    ((∀ x, lineBreaks (render x) = 0) →
      lineBreaks ("elapsed time: " ++ render (elapsedSeconds CPS (ClockT.sub c w.start).val)
            ++ " seconds") = 0 ∧
      lineBreaks ("elapsed time: " ++ render (elapsedSeconds CPS (ClockT.sub c w.start).val)
            ++ " seconds" ++ "\n") = 1) := by
  refine ⟨by simp [toc, std.endl, String.append_assoc], rfl, fun h => ?_⟩
  have h1 : lineBreaks "elapsed time: " = 0 := by decide
  have h2 : lineBreaks " seconds" = 0 := by decide
  have h3 : lineBreaks "\n" = 1 := by decide
  simp [lineBreaks_append, h, h1, h2, h3]

theorem toc_cout_witness :
    lineBreaks ("elapsed time: "
        ++ (fun _ => "1e-06")
            (elapsedSeconds 1000000 (ClockT.sub (ClockT.wrap 1) (World.initial "").start).val)
        ++ " seconds") = 0 ∧
    lineBreaks ("elapsed time: "
        ++ (fun _ => "1e-06")
            (elapsedSeconds 1000000 (ClockT.sub (ClockT.wrap 1) (World.initial "").start).val)
        ++ " seconds" ++ "\n") = 1 :=
  (toc_cout 1000000 (fun _ => "1e-06") (ClockT.wrap 1) (World.initial "")).2.2 (fun _ => by decide)

/-- Claim C4. A call of `toc` leaves `start` as it was (and the unread input
too): its only effect is text appended to `cout`. -/
theorem toc_start (CPS : ℤ) (render : Double → String) (c : ClockT) (w : World) :
    (toc CPS render c w).start = w.start ∧
    (toc CPS render c w).cin = w.cin ∧
    ∃ text, toc CPS render c w = { w with cout := w.cout ++ text } :=
  ⟨rfl, rfl,
    "elapsed time: " ++ render (elapsedSeconds CPS (ClockT.sub c w.start).val) ++ " seconds"
      ++ std.endl,
    by simp [toc, std.endl, String.append_assoc]⟩

/-- Counterexample to claim C5. With `CLOCKS_PER_SEC = 1000000`: after `tic` at
reading `1000`, at reading `1003` the tick difference `3` is below
`ε * CLOCKS_PER_SEC` for `ε = 3.000000000000000000001e-6`, yet the
elapsed-seconds value `1770887431076117 / 2 ^ 69` is above `ε`. At reading
`1123` and for `ε` the `double` `2268949521066275 / 2 ^ 64`, the difference
`123` is below `ε * CLOCKS_PER_SEC`, also when that product is computed in
`double`, and the elapsed-seconds value is `ε` itself, not smaller. -/
theorem tic_toc_not_below_epsilon :
    (0 : ℚ) < 3000000000000000000001 / 10 ^ 27 ∧
    (((ClockT.wrap 1003).val - (tic (ClockT.wrap 1000) (World.initial "")).start.val : ℤ) : ℚ)
      < 3000000000000000000001 / 10 ^ 27 * ((1000000 : ℤ) : ℚ) ∧
    elapsedSeconds 1000000
        (ClockT.sub (ClockT.wrap 1003) (tic (ClockT.wrap 1000) (World.initial "")).start).val
      = num (1770887431076117 / 2 ^ 69) ∧
    (3000000000000000000001 / 10 ^ 27 : ℚ) < 1770887431076117 / 2 ^ 69 ∧
    (((ClockT.wrap 1123).val - (tic (ClockT.wrap 1000) (World.initial "")).start.val : ℤ) : ℚ)
      < 2268949521066275 / 2 ^ 64 * ((1000000 : ℤ) : ℚ) ∧
    fmul (num (2268949521066275 / 2 ^ 64)) (ofInt 1000000)
      = num (8655355533852673 / 2 ^ 46) ∧
    (123 : ℚ) < 8655355533852673 / 2 ^ 46 ∧
    elapsedSeconds 1000000
        (ClockT.sub (ClockT.wrap 1123) (tic (ClockT.wrap 1000) (World.initial "")).start).val
      = num (2268949521066275 / 2 ^ 64) := by
  have d1 : (ClockT.wrap 1003).val - (tic (ClockT.wrap 1000) (World.initial "")).start.val = 3 := by
    decide
  have d2 : (ClockT.wrap 1123).val - (tic (ClockT.wrap 1000) (World.initial "")).start.val
      = 123 := by decide
  have s1 : (ClockT.sub (ClockT.wrap 1003)
      (tic (ClockT.wrap 1000) (World.initial "")).start).val = 3 := by decide
  have s2 : (ClockT.sub (ClockT.wrap 1123)
      (tic (ClockT.wrap 1000) (World.initial "")).start).val = 123 := by decide
  refine ⟨by norm_num, by rw [d1]; norm_num, ?_, by norm_num, by rw [d2]; norm_num,
    fmul_elapsed_123, by norm_num, ?_⟩
  · rw [s1]; exact elapsedSeconds_at_3
  · rw [s2]; exact elapsedSeconds_at_123

/-- Claim C5, amended. For `0 < CLOCKS_PER_SEC ≤ 2 ^ 53` and readings `c ≤ c'`
whose difference fits `clock_t` (`c' - c < 2 ^ 63`): `tic` at `c` followed by
`toc` at `c'` renders the elapsed-seconds value of `c' - c`, whatever `start`
held before; that value is a finite number `e ≥ 0`, it is `+0.0` when `c' = c`,
and for every `ε > 0` with `c' - c < ε * CLOCKS_PER_SEC` it satisfies
`e < ε * (1 + 2 ^ (-51))`, and `e < ε * (1 + 2 ^ (-53))` when
`c' - c ≤ 2 ^ 53`. -/
theorem tic_toc_elapsed (CPS : ℤ) (render : Double → String) (w : World) (c c' : ClockT)
    (h0 : 0 < CPS) (h : CPS ≤ 2 ^ 53) (hc : c.val ≤ c'.val) (hd : c'.val - c.val < 2 ^ 63) :
    (toc CPS render c' (tic c w)).cout
      = w.cout ++ "elapsed time: " ++ render (elapsedSeconds CPS (c'.val - c.val))
          ++ " seconds" ++ "\n" ∧
    (c'.val = c.val → elapsedSeconds CPS (c'.val - c.val) = zero false) ∧
    ∃ e : ℚ, (elapsedSeconds CPS (c'.val - c.val)).toRat? = some e ∧ 0 ≤ e ∧
      ∀ ε : ℚ, 0 < ε → ((c'.val - c.val : ℤ) : ℚ) < ε * CPS →
        e < ε * (1 + 1 / 2 ^ 51) ∧ (c'.val - c.val ≤ 2 ^ 53 → e < ε * (1 + 1 / 2 ^ 53)) := by
  have hd0 : 0 ≤ c'.val - c.val := sub_nonneg.mpr hc
  refine ⟨?_, ?_, ?_⟩
  · exact toc_cout_of_fits CPS render c' (tic c w) (le_trans (by norm_num) hd0) hd
  · intro hcc
    rw [hcc, sub_self, elapsedSeconds_zero h0 h]
  · rcases eq_or_lt_of_le hd0 with hz | hpos
    · refine ⟨0, ?_, le_rfl, ?_⟩
      · rw [← hz, elapsedSeconds_zero h0 h]; rfl
      · intro ε hε _
        exact ⟨by positivity, fun _ => by positivity⟩
    · have habs : |c'.val - c.val| ≤ 2 ^ 63 := by rw [abs_of_nonneg hd0]; exact hd.le
      obtain ⟨_, e, _, _, he, _, herr⟩ := elapsedSeconds_finite h0 h habs hpos.ne'
      have hC : (0 : ℚ) < CPS := by exact_mod_cast h0
      have hx : (0 : ℚ) < ((c'.val - c.val : ℤ) : ℚ) / CPS :=
        div_pos (by exact_mod_cast hpos) hC
      rw [abs_of_pos hx, abs_le] at herr
      refine ⟨e, by rw [he]; rfl, ?_, ?_⟩
      · have : ((c'.val - c.val : ℤ) : ℚ) / CPS / 2 ^ 51 ≤ ((c'.val - c.val : ℤ) : ℚ) / CPS :=
          div_le_self hx.le (by norm_num)
        linarith [herr.1]
      · intro ε hε hlt
        have hq : ((c'.val - c.val : ℤ) : ℚ) / CPS < ε := by rwa [div_lt_iff₀ hC]
        constructor
        · have : e ≤ ((c'.val - c.val : ℤ) : ℚ) / CPS * (1 + 1 / 2 ^ 51) := by
            have := herr.2
            linarith
          calc e ≤ ((c'.val - c.val : ℤ) : ℚ) / CPS * (1 + 1 / 2 ^ 51) := this
            _ < ε * (1 + 1 / 2 ^ 51) := mul_lt_mul_of_pos_right hq (by norm_num)
        · intro hd53
          have habs53 : |c'.val - c.val| ≤ 2 ^ 53 := by rw [abs_of_nonneg hd0]; exact hd53
          obtain ⟨e', he', _, _, herr', _, _⟩ := elapsedSeconds_normal h0 h habs53 hpos.ne'
          have hee : e' = e := Double.num.inj (he'.symm.trans he)
          rw [hee, abs_of_pos hx, abs_le] at herr'
          have : e ≤ ((c'.val - c.val : ℤ) : ℚ) / CPS * (1 + 1 / 2 ^ 53) := by
            have := herr'.2
            linarith
          calc e ≤ ((c'.val - c.val : ℤ) : ℚ) / CPS * (1 + 1 / 2 ^ 53) := this
            _ < ε * (1 + 1 / 2 ^ 53) := mul_lt_mul_of_pos_right hq (by norm_num)

theorem tic_toc_elapsed_witness :
    ∃ e : ℚ, (elapsedSeconds 1000000
        ((ClockT.wrap 1003).val - (ClockT.wrap 1000).val)).toRat? = some e ∧ 0 ≤ e ∧
      ∀ ε : ℚ, 0 < ε →
        (((ClockT.wrap 1003).val - (ClockT.wrap 1000).val : ℤ) : ℚ) < ε * (1000000 : ℤ) →
        e < ε * (1 + 1 / 2 ^ 51) ∧
          ((ClockT.wrap 1003).val - (ClockT.wrap 1000).val ≤ 2 ^ 53 →
            e < ε * (1 + 1 / 2 ^ 53)) :=
  (tic_toc_elapsed 1000000 (fun _ => "3e-06") (World.initial "") (ClockT.wrap 1000)
    (ClockT.wrap 1003) (by decide) (by decide) (by decide) (by decide)).2.2

/-- Counterexample to claim C6. With `CLOCKS_PER_SEC = 1000000` and `start = -1` (set
by a `tic` that observed the reading `-1`), two successive `toc` calls at the
readings `2 ^ 63 - 2 ≤ 2 ^ 63 - 1`: the first difference is `2 ^ 63 - 1` and the
value reported is `4722366482869645 / 2 ^ 9` (about `9.22e12`); the second
difference overflows `clock_t` and wraps to `-2 ^ 63`, the value reported is
`-(4722366482869645 / 2 ^ 9)`, below the first. -/
theorem toc_toc_overflow :
    (tic (ClockT.wrap (-1)) (World.initial "")).start.val = -1 ∧
    (ClockT.wrap (2 ^ 63 - 2)).val = 2 ^ 63 - 2 ∧
    (ClockT.wrap (2 ^ 63 - 1)).val = 2 ^ 63 - 1 ∧
    (ClockT.wrap (2 ^ 63 - 2)).val ≤ (ClockT.wrap (2 ^ 63 - 1)).val ∧
    elapsedSeconds 1000000
        (ClockT.sub (ClockT.wrap (2 ^ 63 - 2))
          (tic (ClockT.wrap (-1)) (World.initial "")).start).val
      = num (4722366482869645 / 2 ^ 9) ∧
    elapsedSeconds 1000000
        (ClockT.sub (ClockT.wrap (2 ^ 63 - 1))
          (toc 1000000 renderSample (ClockT.wrap (2 ^ 63 - 2))
            (tic (ClockT.wrap (-1)) (World.initial ""))).start).val
      = num (-(4722366482869645 / 2 ^ 9)) ∧
    Double.le (num (4722366482869645 / 2 ^ 9)) (num (-(4722366482869645 / 2 ^ 9))) = false := by
  have s1 : (ClockT.sub (ClockT.wrap (2 ^ 63 - 2))
      (tic (ClockT.wrap (-1)) (World.initial "")).start).val = 9223372036854775807 := by decide
  have s2 : (ClockT.sub (ClockT.wrap (2 ^ 63 - 1))
      (toc 1000000 renderSample (ClockT.wrap (2 ^ 63 - 2))
        (tic (ClockT.wrap (-1)) (World.initial ""))).start).val = -9223372036854775808 := by
    decide
  refine ⟨by decide, by decide, by decide, by decide, ?_, ?_, ?_⟩
  · rw [s1]; exact elapsedSeconds_at_max
  · rw [s2]; exact elapsedSeconds_at_min
  · simp only [Double.le, decide_eq_false_iff_not]
    norm_num

/-- Claim C6, amended. For `0 < CLOCKS_PER_SEC ≤ 2 ^ 53` and two successive calls
of `toc` at readings `c₁ ≤ c₂`, no `tic` in between, whose differences to
`start` fit `clock_t` (`-2 ^ 63 ≤ c₁ - start` and `c₂ - start < 2 ^ 63`): both
lines render the elapsed-seconds value against the same `start`, which is
unchanged afterwards, and the second value is at least the first. -/
theorem toc_toc_mono (CPS : ℤ) (render : Double → String) (w : World) (c₁ c₂ : ClockT)
    (h0 : 0 < CPS) (h : CPS ≤ 2 ^ 53) (hc : c₁.val ≤ c₂.val)
    (hlo : -2 ^ 63 ≤ c₁.val - w.start.val) (hhi : c₂.val - w.start.val < 2 ^ 63) :
    (toc CPS render c₂ (toc CPS render c₁ w)).cout
      = w.cout ++ "elapsed time: " ++ render (elapsedSeconds CPS (c₁.val - w.start.val))
          ++ " seconds" ++ "\n"
          ++ "elapsed time: " ++ render (elapsedSeconds CPS (c₂.val - w.start.val))
          ++ " seconds" ++ "\n" ∧
    (toc CPS render c₁ w).start = w.start ∧
    (toc CPS render c₂ (toc CPS render c₁ w)).start = w.start ∧
    Double.le (elapsedSeconds CPS (c₁.val - w.start.val))
      (elapsedSeconds CPS (c₂.val - w.start.val)) = true := by
  refine ⟨?_, rfl, rfl, elapsedSeconds_mono h0 h (by omega)⟩
  have e2 : (toc CPS render c₂ (toc CPS render c₁ w)).cout
      = (toc CPS render c₁ w).cout ++ "elapsed time: "
          ++ render (elapsedSeconds CPS (c₂.val - w.start.val)) ++ " seconds" ++ "\n" :=
    toc_cout_of_fits CPS render c₂ (toc CPS render c₁ w) (by
      show -2 ^ 63 ≤ c₂.val - w.start.val
      omega) hhi
  rw [e2, toc_cout_of_fits CPS render c₁ w hlo (by omega)]

theorem toc_toc_mono_witness :
    Double.le (elapsedSeconds 1000000 ((ClockT.wrap 7).val - (World.initial "").start.val))
      (elapsedSeconds 1000000 ((ClockT.wrap 9).val - (World.initial "").start.val)) = true :=
  (toc_toc_mono 1000000 (fun _ => "") (World.initial "") (ClockT.wrap 7) (ClockT.wrap 9)
    (by decide) (by decide) (by decide) (by decide) (by decide)).2.2.2

/-- Counterexample to claim C7. With `CLOCKS_PER_SEC = 1000000`: the session `tic`
at reading `0`, `toc` at reading `1` has duration `D₁ = 1` and reports
`4722366482869645 / 2 ^ 72` (about `1e-6`); the session `tic` at reading `-1`,
`toc` at reading `2 ^ 63 - 1` has duration `D₂ = 2 ^ 63 ≥ D₁`, its difference
overflows `clock_t`, and it reports `-(4722366482869645 / 2 ^ 9)`, below the
first. -/
theorem session_overflow :
    (ClockT.wrap 1).val = (ClockT.wrap 0).val + 1 ∧
    (ClockT.wrap (2 ^ 63 - 1)).val = (ClockT.wrap (-1)).val + 2 ^ 63 ∧
    (0 : ℤ) ≤ 1 ∧ (1 : ℤ) ≤ 2 ^ 63 ∧
    elapsedSeconds 1000000
        (ClockT.sub (ClockT.wrap 1) (tic (ClockT.wrap 0) (World.initial "")).start).val
      = num (4722366482869645 / 2 ^ 72) ∧
    elapsedSeconds 1000000
        (ClockT.sub (ClockT.wrap (2 ^ 63 - 1))
          (tic (ClockT.wrap (-1)) (World.initial "")).start).val
      = num (-(4722366482869645 / 2 ^ 9)) ∧
    Double.le (num (4722366482869645 / 2 ^ 72)) (num (-(4722366482869645 / 2 ^ 9))) = false := by
  have s1 : (ClockT.sub (ClockT.wrap 1) (tic (ClockT.wrap 0) (World.initial "")).start).val
      = 1 := by decide
  have s2 : (ClockT.sub (ClockT.wrap (2 ^ 63 - 1))
      (tic (ClockT.wrap (-1)) (World.initial "")).start).val = -9223372036854775808 := by
    decide
  refine ⟨by decide, by decide, by decide, by decide, ?_, ?_, ?_⟩
  · rw [s1]; exact elapsedSeconds_at_1
  · rw [s2]; exact elapsedSeconds_at_min
  · simp only [Double.le, decide_eq_false_iff_not]
    norm_num

/-- Claim C7, amended. For `0 < CLOCKS_PER_SEC ≤ 2 ^ 53` and durations
`D₁ ≤ D₂` that fit `clock_t` (`-2 ^ 63 ≤ D₁` and `D₂ < 2 ^ 63`, in particular
`0 ≤ D₁ ≤ D₂ < 2 ^ 63`): a session `tic` at `s`, `toc` at `s + D` renders the
elapsed-seconds value of the duration `D` alone, whatever the start reading and
the earlier state, and the value of the first session is at most that of the
second. -/
theorem session_mono (CPS : ℤ) (render : Double → String) (w₁ w₂ : World)
    (s₁ t₁ s₂ t₂ : ClockT) (D₁ D₂ : ℤ) (h0 : 0 < CPS) (h : CPS ≤ 2 ^ 53)
    (ht₁ : t₁.val = s₁.val + D₁) (ht₂ : t₂.val = s₂.val + D₂)
    (hlo : -2 ^ 63 ≤ D₁) (hD : D₁ ≤ D₂) (hhi : D₂ < 2 ^ 63) :
    (toc CPS render t₁ (tic s₁ w₁)).cout
      = w₁.cout ++ "elapsed time: " ++ render (elapsedSeconds CPS D₁) ++ " seconds" ++ "\n" ∧
    (toc CPS render t₂ (tic s₂ w₂)).cout
      = w₂.cout ++ "elapsed time: " ++ render (elapsedSeconds CPS D₂) ++ " seconds" ++ "\n" ∧
    Double.le (elapsedSeconds CPS D₁) (elapsedSeconds CPS D₂) = true := by
  have d1 : t₁.val - (tic s₁ w₁).start.val = D₁ := by
    show t₁.val - s₁.val = D₁
    omega
  have d2 : t₂.val - (tic s₂ w₂).start.val = D₂ := by
    show t₂.val - s₂.val = D₂
    omega
  refine ⟨?_, ?_, elapsedSeconds_mono h0 h hD⟩
  · rw [toc_cout_of_fits CPS render t₁ (tic s₁ w₁) (by rw [d1]; exact hlo) (by rw [d1]; omega),
      d1]
    rfl
  · rw [toc_cout_of_fits CPS render t₂ (tic s₂ w₂) (by rw [d2]; omega) (by rw [d2]; exact hhi),
      d2]
    rfl

theorem session_mono_witness :
    Double.le (elapsedSeconds 1000000 250) (elapsedSeconds 1000000 4000) = true :=
  (session_mono 1000000 (fun _ => "") (World.initial "") (World.initial "")
    (ClockT.wrap 10) (ClockT.wrap 260) (ClockT.wrap 77) (ClockT.wrap 4077) 250 4000
    (by decide) (by decide) (by decide) (by decide) (by decide) (by decide) (by decide)).2.2

/-- Claim C8. Called in the initial state, before any `tic`, `toc` writes its line
like any other call: the value it renders is the `double` quotient of the clock
reading `c` (converted to `double`) by `CLOCKS_PER_SEC`, the elapsed time against
the initial `start = 0`; `start` stays `0`. When `c` and `CLOCKS_PER_SEC` are
exactly representable this is the rounding of the real quotient. -/
theorem toc_initial (CPS : ℤ) (render : Double → String) (input : String) (c : ClockT) :
    toc CPS render c (World.initial input)
      = ⟨ClockT.zero,
          "elapsed time: " ++ render (fdiv (ofInt c.val) (ofInt CPS)) ++ " seconds" ++ "\n",
          input⟩ ∧
    elapsedSeconds CPS (ClockT.sub c (World.initial input).start).val
      = fdiv (ofInt c.val) (ofInt CPS) ∧
    (0 < CPS → CPS ≤ 2 ^ 53 → |c.val| ≤ 2 ^ 53 →
      fdiv (ofInt c.val) (ofInt CPS) = roundNE ((c.val : ℚ) / CPS)) := by
  have hd : (ClockT.sub c (World.initial input).start).val = c.val := ClockT.sub_zero_val c
  refine ⟨?_, ?_, ?_⟩
  · simp only [toc, hd, elapsedSeconds_eq_fdiv]
    simp [World.initial, std.endl]
  · rw [hd, elapsedSeconds_eq_fdiv]
  · intro h0 h hc
    rw [← elapsedSeconds_eq_fdiv, elapsedSeconds_eq_roundNE h0 h hc]

theorem toc_initial_witness :
    fdiv (ofInt (ClockT.wrap 2500000).val) (ofInt 1000000)
      = roundNE (((ClockT.wrap 2500000).val : ℚ) / (1000000 : ℤ)) :=
  (toc_initial 1000000 (fun _ => "2.5") "" (ClockT.wrap 2500000)).2.2 (by decide) (by decide)
    (by decide)

/-- Claim C9. The operators program writes the prompt and then six lines, labelled
`v == `, `v+1 == `, `3*v == `, `v+v == `, `v*v == `, `v/2 == ` in this order,
each with the rendering of the corresponding `double` expression, and returns
`0`. When renderings contain no newline the output has exactly six newlines.
The quotient `v/2` is a `double` division: for binary64 `v` of magnitude at
least `2 ^ (-1021)` it is exactly half of `v`. For `v = 2.0` the six values
are `2, 3, 6, 4, 4, 1`. -/
theorem Operators.operators_output (render : Double → String) (v : Double) :
    Operators.main render v
      = ("Please enter a floating point value: "
          ++ "v == " ++ render v ++ "\n"
          ++ "v+1 == " ++ render (fadd v (ofInt 1)) ++ "\n"
          ++ "3*v == " ++ render (fmul (ofInt 3) v) ++ "\n"
          ++ "v+v == " ++ render (fadd v v) ++ "\n"
          ++ "v*v == " ++ render (fmul v v) ++ "\n"
          ++ "v/2 == " ++ render (fdiv v (ofInt 2)) ++ "\n", 0) ∧
    ((∀ x, lineBreaks (render x) = 0) → lineBreaks (Operators.main render v).1 = 6) ∧
    (∀ q : ℚ, v = num q → IsBinary64 q → (2 : ℚ) ^ (-1021 : ℤ) ≤ |q| →
      fdiv v (ofInt 2) = num (q / 2)) ∧
    (v = num 2 →
      Operators.main render v
        = ("Please enter a floating point value: "
            ++ "v == " ++ render (num 2) ++ "\n"
            ++ "v+1 == " ++ render (num 3) ++ "\n"
            ++ "3*v == " ++ render (num 6) ++ "\n"
            ++ "v+v == " ++ render (num 4) ++ "\n"
            ++ "v*v == " ++ render (num 4) ++ "\n"
            ++ "v/2 == " ++ render (num 1) ++ "\n", 0)) := by
  have hmain : Operators.main render v
      = ("Please enter a floating point value: "
          ++ "v == " ++ render v ++ "\n"
          ++ "v+1 == " ++ render (fadd v (ofInt 1)) ++ "\n"
          ++ "3*v == " ++ render (fmul (ofInt 3) v) ++ "\n"
          ++ "v+v == " ++ render (fadd v v) ++ "\n"
          ++ "v*v == " ++ render (fmul v v) ++ "\n"
          ++ "v/2 == " ++ render (fdiv v (ofInt 2)) ++ "\n", 0) := by
    simp [Operators.main, endl, std.endl, String.append_assoc]
  refine ⟨hmain, ?_, ?_, ?_⟩
  · intro h
    rw [hmain]
    have l0 : lineBreaks "Please enter a floating point value: " = 0 := by decide
    have l1 : lineBreaks "v == " = 0 := by decide
    have l2 : lineBreaks "v+1 == " = 0 := by decide
    have l3 : lineBreaks "3*v == " = 0 := by decide
    have l4 : lineBreaks "v+v == " = 0 := by decide
    have l5 : lineBreaks "v*v == " = 0 := by decide
    have l6 : lineBreaks "v/2 == " = 0 := by decide
    have ln : lineBreaks "\n" = 1 := by decide
    simp only [lineBreaks_append, h, l0, l1, l2, l3, l4, l5, l6, ln]
  · intro q hv hq hn
    rw [hv]
    exact fdiv_two hq hn
  · intro hv
    obtain ⟨a1, a2, a3, a4, a5⟩ := operators_at_two
    rw [hmain, hv, a1, a2, a3, a4, a5]

theorem Operators.operators_output_witness :
    Operators.main renderSample (num 2)
      = ("Please enter a floating point value: v == 2\nv+1 == 3\n3*v == 6\nv+v == 4\nv*v == 4\nv/2 == 1\n", 0) ∧
    lineBreaks (Operators.main renderSample (num 2)).1 = 6 ∧
    fdiv (num 3) (ofInt 2) = num (3 / 2) := by
  have h := Operators.operators_output renderSample (num 2)
  refine ⟨?_, h.2.1 lineBreaks_renderSample, ?_⟩
  · rw [h.2.2.2 rfl]
    decide
  · have h3 : IsBinary64 (3 : ℚ) := by
      have := isBinary64_intCast (n := 3) (by norm_num) (by norm_num)
      simpa using this
    exact (Operators.operators_output renderSample (num 3)).2.2.1 3 rfl h3 (by norm_num)

/-- Claim C10. The greeting program writes the prompt for the first name, the
prompt for the age, then `Hello, ` the name ` (age ` the age in decimal `)` and
a newline, and returns `0`. The decimal text is an optional minus sign and the
base-10 digits, most significant first. When the name contains no newline the
output has exactly one. For `Ada`, `30` the final line is
`Hello, Ada (age 30)`. -/
theorem InputAndType.greeting_output (first_name : String) (age : ℤ) :
    InputAndType.main first_name age
      = ("Please enter your first name: " ++ "Please enter your age: "
          ++ "Hello, " ++ first_name ++ " (age " ++ decimal age ++ ")" ++ "\n", 0) ∧
    (decimal age).toList = (if age < 0 then ['-'] else [])
      ++ (if age = 0 then ['0'] else (Nat.digits 10 age.natAbs).reverse.map Nat.digitChar) ∧
    (lineBreaks first_name = 0 → lineBreaks (InputAndType.main first_name age).1 = 1) ∧
    InputAndType.main "Ada" 30
      = ("Please enter your first name: Please enter your age: Hello, Ada (age 30)\n", 0) := by
  have hmain : InputAndType.main first_name age
      = ("Please enter your first name: " ++ "Please enter your age: "
          ++ "Hello, " ++ first_name ++ " (age " ++ decimal age ++ ")" ++ "\n", 0) := by
    simp [InputAndType.main, endl, std.endl, String.append_assoc]
  refine ⟨hmain, decimal_toList age, ?_, by decide⟩
  intro h
  rw [hmain]
  have l0 : lineBreaks "Please enter your first name: " = 0 := by decide
  have l1 : lineBreaks "Please enter your age: " = 0 := by decide
  have l2 : lineBreaks "Hello, " = 0 := by decide
  have l3 : lineBreaks " (age " = 0 := by decide
  have l4 : lineBreaks ")" = 0 := by decide
  have ln : lineBreaks "\n" = 1 := by decide
  simp only [lineBreaks_append, h, lineBreaks_decimal, l0, l1, l2, l3, l4, ln]

theorem InputAndType.greeting_output_witness :
    lineBreaks (InputAndType.main "Ada" 30).1 = 1 :=
  (InputAndType.greeting_output "Ada" 30).2.2.1 (by decide)

end ES123
